import Mathlib

/-!
Shallow embedding of the mpx-parser template pipeline
(`MpxTemplateParser`, `MpxToVueConverter`, `addRef`) and proofs about it.

The parser source mutates a lexer cursor and pushes errors onto a parser
instance; here that state is threaded explicitly.  Recursive-descent loops
that are not structurally decreasing take a fuel argument and return
`Option`; fuel exhaustion (`none`) never happens for the fuel chosen by the
top-level entry point, which is proved below.
-/

set_option maxHeartbeats 1000000

namespace Mpx

/-- Scanner state of the `Lexer` class: remaining input characters plus the
1-based line/column counters and the 0-based absolute position. -/
structure LexState where
  rest : List Char
  line : Nat
  col : Nat
  pos : Nat
deriving Repr, DecidableEq

/-- Models `Lexer.advance`: consume one character, updating line, column and
position (a newline resets the column and bumps the line).  No call site in
the source reaches the end-of-input case; there we keep `rest` unchanged. -/
def advance1 (σ : LexState) : LexState :=
  match σ.rest with
  | [] => { σ with pos := σ.pos + 1, col := σ.col + 1 }
  | c :: cs =>
    if c = '\n' then { rest := cs, line := σ.line + 1, col := 1, pos := σ.pos + 1 }
    else { rest := cs, line := σ.line, col := σ.col + 1, pos := σ.pos + 1 }

/-- Iterated `advance1`. -/
def advanceN (σ : LexState) : Nat → LexState
  | 0 => σ
  | n + 1 => advanceN (advance1 σ) n

/-- The whitespace class used by the source through the regular expression
`\s` (`skipWhitespace`) and by the JavaScript trim operation.  We model
the ASCII part plus NBSP; the further Unicode space code points of `\s` do
not affect any of the properties proved here. -/
def isJsSpace (c : Char) : Bool :=
  c = ' ' || c = '\t' || c = '\n' || c = '\r' || c = '\x0b' || c = '\x0c' || c = '\xa0'

/-- Models `Lexer.skipWhitespace`: advance while the current character is
whitespace. -/
def skipWs (σ : LexState) : LexState :=
  advanceN σ (σ.rest.takeWhile isJsSpace).length

/-- Models `consumeChar(expected)`: advance when the current character is the
expected one, otherwise leave the state untouched (`none`). -/
def consumeChar (σ : LexState) (c : Char) : Option LexState :=
  if σ.rest.head? = some c then some (advance1 σ) else none

/-- Tag-name characters, the regular expression `[a-zA-Z0-9\-_]`. -/
def isTagChar (c : Char) : Bool :=
  c.isAlpha || c.isDigit || c = '-' || c = '_'

/-- Attribute-name characters, the regular expression `[a-zA-Z0-9\-_:@]`. -/
def isAttrNameChar (c : Char) : Bool :=
  c.isAlpha || c.isDigit || c = '-' || c = '_' || c = ':' || c = '@'

/-- Characters ending an unquoted attribute value, the regular expression
`[\s>\/]`. -/
def isUnquotedEnd (c : Char) : Bool :=
  isJsSpace c || c = '>' || c = '/'

/-- The literal left-brace character (written via its code point so that no
brace appears in a string or character literal in this file). -/
def lbrace : Char := Char.ofNat 123

/-- The literal right-brace character. -/
def rbrace : Char := Char.ofNat 125

/-- The JavaScript trim operation, i.e. dropping whitespace from both
ends, modelled on the character list. -/
def jsTrimL (cs : List Char) : List Char :=
  ((cs.dropWhile isJsSpace).reverse.dropWhile isJsSpace).reverse

/-- The trim operation on strings. -/
def jsTrim (s : String) : String :=
  String.mk (jsTrimL s.data)

/-- The JavaScript startsWith test. -/
def jsStartsWith (s pre : String) : Bool :=
  s.data.take pre.data.length == pre.data

/-- Models the scan loop of `MpxTemplateParser.parseComment` on the raw character
list: collect content until the literal `-->` (which is consumed) or end of
input.  Returns the content characters and the number of source characters
consumed. -/
def scanComment : List Char → List Char × Nat
  | '-' :: '-' :: '>' :: _ => ([], 3)
  | [] => ([], 0)
  | c :: cs =>
    let r := scanComment cs
    (c :: r.1, r.2 + 1)

/-- Models the scan loop of `parseQuotedString` (after the opening quote): collect
until the closing quote or end of input, a backslash escaping the next
character.  Returns the value characters and the number of source characters
consumed (the closing quote, if present, is not counted here). -/
def scanQuoted (q : Char) : List Char → List Char × Nat
  | [] => ([], 0)
  | c :: cs' =>
    if c = q then ([], 0)
    else if c = '\\' then
      match cs' with
      | [] => ([], 1)
      | c2 :: cs2 =>
        let r := scanQuoted q cs2
        (c2 :: r.1, r.2 + 2)
    else
      let r := scanQuoted q cs'
      (c :: r.1, r.2 + 1)

/-- Models `parseQuotedString` at the state level; `σ` sits on the opening
quote. -/
def parseQuotedString (q : Char) (σ : LexState) : String × LexState :=
  let σ1 := advance1 σ
  let r := scanQuoted q σ1.rest
  let σ2 := advanceN σ1 r.2
  let σ3 := if σ2.rest.head? = some q then advance1 σ2 else σ2
  (String.mk r.1, σ3)

/-- Models `parseTagName`: a run of tag-name characters, `none` if empty. -/
def parseTagName (σ : LexState) : Option String × LexState :=
  let t := σ.rest.takeWhile isTagChar
  (if t.isEmpty then none else some (String.mk t), advanceN σ t.length)

/-- Models `parseAttributeName`: a run of attribute-name characters. -/
def parseAttributeName (σ : LexState) : Option String × LexState :=
  let t := σ.rest.takeWhile isAttrNameChar
  (if t.isEmpty then none else some (String.mk t), advanceN σ t.length)

/-- Models `parseAttributeValue`: a double- or single-quoted string, or an
unquoted run up to whitespace, `>` or `/` (empty run gives `null`). -/
def parseAttributeValue (σ : LexState) : Option String × LexState :=
  if σ.rest.head? = some '"' then
    let r := parseQuotedString '"' σ
    (some r.1, r.2)
  else if σ.rest.head? = some '\'' then
    let r := parseQuotedString '\'' σ
    (some r.1, r.2)
  else
    let t := σ.rest.takeWhile (fun c => !isUnquotedEnd c)
    (if t.isEmpty then none else some (String.mk t), advanceN σ t.length)

/-- A parsed directive: name (modifiers stripped), raw value, modifier list. -/
structure Directive where
  name : String
  value : String
  modifiers : List String
deriving Repr, DecidableEq

/-- A raw parsed attribute as stored in `attributesAll`. -/
structure Attribute where
  name : String
  value : String
  isDirective : Bool
  directive : Option Directive
deriving Repr, DecidableEq

/-- Models `isDirectiveName`: the name starts with `wx:`, `@`, `bind` or
`catch`. -/
def isDirectiveName (name : String) : Bool :=
  jsStartsWith name "wx:" || jsStartsWith name "@" ||
    jsStartsWith name "bind" || jsStartsWith name "catch"

/-- The JavaScript string split with a one-character separator. -/
def splitOnChar (sep : Char) : List Char → List (List Char)
  | [] => [[]]
  | c :: rest =>
    match splitOnChar sep rest with
    | [] => if c = sep then [[], []] else [[c]]
    | h :: t => if c = sep then [] :: h :: t else (c :: h) :: t

/-- Models `parseDirective`: when the name contains a dot, the directive name
is the part before the first dot (`parts[0]`) and the modifiers are the
remaining dot-separated segments. -/
def parseDirective (name value : String) : Directive :=
  if name.data.contains '.' then
    { name := String.mk (name.data.takeWhile (fun c => c ≠ '.')),
      value := value,
      modifiers := ((splitOnChar '.' name.data).tail).map String.mk }
  else
    { name := name, value := value, modifiers := [] }

/-- The pure classification tail of `parseAttribute`: given the parsed name
and value, build the `Attribute` record. -/
def classifyAttr (name value : String) : Attribute :=
  let isD := isDirectiveName name
  { name := name, value := value, isDirective := isD,
    directive := if isD then some (parseDirective name value) else none }

/-- Models `parseAttribute`: name, optional `= value`, then classification.
Returns `none` (without consuming) when no attribute name is present. -/
def parseAttribute (σ : LexState) : Option Attribute × LexState :=
  match parseAttributeName σ with
  | (none, σ1) => (none, σ1)
  | (some name, σ1) =>
    let σ2 := skipWs σ1
    let (value, σ3) :=
      if σ2.rest.head? = some '=' then
        let σa := advance1 σ2
        let σb := skipWs σa
        let r := parseAttributeValue σb
        (r.1.getD "", r.2)
      else ("", σ2)
    (some (classifyAttr name value), σ3)

/-- Source span recorded on every node (`position` in the source; the `end`
field is called `stop` here because `end` is a Lean keyword). -/
structure SrcPos where
  start : Nat
  stop : Nat
  line : Nat
  column : Nat
deriving Repr, DecidableEq

/-- The value stored for one directive in the `directives` record of an element:
`{ value, modifiers }`. -/
structure DirectiveEntry where
  value : String
  modifiers : List String
deriving Repr, DecidableEq

/-- A JavaScript-object write `o[k] = v`: replace the value of an existing
key in place, otherwise append the new key at the end (insertion order). -/
def jsSet {α : Type} (o : List (String × α)) (k : String) (v : α) : List (String × α) :=
  if o.any (fun p => p.1 = k) then o.map (fun p => if p.1 = k then (k, v) else p)
  else o ++ [(k, v)]

/-- A JavaScript-object read `o[k]`. -/
def jsGet {α : Type} (o : List (String × α)) (k : String) : Option α :=
  (o.find? (fun p => p.1 = k)).map (fun p => p.2)

/-- The attribute record built by `processAttributes`: the `directives` and
`props` sub-objects are created lazily (absent until the first entry, hence
`Option`), and `attributesAll` keeps every raw attribute in source order. -/
structure ElemAttributes where
  directives : Option (List (String × DirectiveEntry))
  props : Option (List (String × String))
  attributesAll : List Attribute
deriving Repr, DecidableEq

/-- The loop body of `processAttributes`: a directive attribute with a
parsed `directive` record goes to the `directives` object (created on first
use) under its modifier-stripped directive name; every other attribute goes
to `props` under its raw name. -/
def paStep (st : Option (List (String × DirectiveEntry)) × Option (List (String × String)))
    (a : Attribute) :
    Option (List (String × DirectiveEntry)) × Option (List (String × String)) :=
  match a.isDirective, a.directive with
  | true, some d => (some (jsSet (st.1.getD []) d.name ⟨d.value, d.modifiers⟩), st.2)
  | _, _ => (st.1, some (jsSet (st.2.getD []) a.name a.value))

/-- Models `processAttributes`: fold the attributes through `paStep` and
keep the whole raw list in `attributesAll`. -/
def processAttributes (attrs : List Attribute) : ElemAttributes :=
  let st := attrs.foldl paStep (none, none)
  { directives := st.1, props := st.2, attributesAll := attrs }

/-- The AST node union produced by the parser: element, text or comment. -/
inductive ASTNode where
  | element (name : String) (attributes : ElemAttributes) (children : List ASTNode)
      (position : SrcPos)
  | text (content : String) (position : SrcPos)
  | comment (content : String) (position : SrcPos)
deriving Repr

/-- Parser-level state: the lexer plus the accumulated `errors` and
`warnings` lists. -/
structure PSt where
  lx : LexState
  errors : List String
  warnings : List String
deriving Repr, DecidableEq

/-- Models `addError`: push one message prefixed with the current line and
column. -/
def addErr (st : PSt) (msg : String) : PSt :=
  { st with errors := st.errors ++
      ["第 " ++ toString st.lx.line ++ " 行第 " ++ toString st.lx.col ++ " 列: " ++ msg] }

/-- Models `parseText`: collect characters up to the next `<` (or end); a run
whose trim is empty yields no node, but is consumed either way. -/
def parseTextP (st : PSt) : Option ASTNode × PSt :=
  let startP := st.lx
  let t := st.lx.rest.takeWhile (fun c => c ≠ '<')
  let lx2 := advanceN st.lx t.length
  let node :=
    if (jsTrimL t).isEmpty then none
    else some (ASTNode.text (String.mk t) ⟨startP.pos, lx2.pos, startP.line, startP.col⟩)
  (node, { st with lx := lx2 })

/-- Models `parseComment`; the state sits on the `!` right after the consumed
`<`, matching where the source captures the start position of the comment. -/
def parseCommentP (st : PSt) : ASTNode × PSt :=
  let startP := st.lx
  let lx1 := advanceN st.lx 3
  let r := scanComment lx1.rest
  let lx2 := advanceN lx1 r.2
  (ASTNode.comment (String.mk r.1) ⟨startP.pos, lx2.pos, startP.line, startP.col⟩,
    { st with lx := lx2 })

/-- Models `parseEndTag`: consume `</`, a tag name, whitespace and `>` (the
result of consuming `>` is ignored by the source); returns the tag name. -/
def parseEndTagP (st : PSt) : Option String × PSt :=
  match consumeChar st.lx '<' with
  | none => (none, st)
  | some lx1 =>
    match consumeChar lx1 '/' with
    | none => (none, { st with lx := lx1 })
    | some lx2 =>
      let (tn, lx3) := parseTagName lx2
      let lx4 := skipWs lx3
      let lx5 := (consumeChar lx4 '>').getD lx4
      (tn, { st with lx := lx5 })

/-- The template-literal rendering of `endTagName` in the mismatch message:
a `null` tag name prints as the string `null`. -/
def jsShowOptStr (o : Option String) : String :=
  match o with
  | some s => s
  | none => "null"

/-- The mismatched-close-tag error message of `parseChildren`. -/
def mismatchMsg (tag : String) (found : Option String) : String :=
  "不匹配的结束标签: 期望 </" ++ tag ++ ">，但找到 </" ++ jsShowOptStr found ++ ">"

/-- Models the `parseAttributes` loop, with fuel: skip whitespace, stop at
`>` or `/`, otherwise parse one attribute and continue (stop when no
attribute can be parsed). -/
def parseAttributesF : Nat → PSt → Option (List Attribute × PSt)
  | 0, _ => none
  | fuel + 1, st =>
    let st1 := { st with lx := skipWs st.lx }
    if st1.lx.rest.head? = some '>' ∨ st1.lx.rest.head? = some '/' then some ([], st1)
    else
      match parseAttribute st1.lx with
      | (none, lx2) => some ([], { st1 with lx := lx2 })
      | (some a, lx2) =>
        match parseAttributesF fuel { st1 with lx := lx2 } with
        | none => none
        | some (rest, st3) => some (a :: rest, st3)

/-- Helper for the self-closing check of `parseElement`: when the input
continues with `/>` the `/` is skipped (the `>` right after it is consumed
by the subsequent `consumeChar`). -/
def selfCloseAdvance (σ : LexState) : LexState :=
  if σ.rest.head? = some '/' ∧ σ.rest.get? 1 = some '>' then advance1 σ else σ

mutual

/-- Models `parseNode`: dispatch on the current character (`<` starts an
element, anything else a text run). -/
def parseNodeF : Nat → PSt → Option (Option ASTNode × PSt)
  | 0, _ => none
  | fuel + 1, st =>
    if st.lx.rest.head? = some '<' then parseElementF fuel st
    else some (parseTextP st)

/-- Models `parseElement`: consume `<`; dispatch to comment parsing on
`!--`; yield no node on `/` (a close tag, handled by the caller); otherwise
tag name, attributes, optional `/` of a self-closing tag, `>`, and children
unless self-closing.  Structural failures record an error and yield no
node. -/
def parseElementF : Nat → PSt → Option (Option ASTNode × PSt)
  | 0, _ => none
  | fuel + 1, st =>
    let startP := st.lx
    match consumeChar st.lx '<' with
    | none => some (none, st)
    | some lx1 =>
      if lx1.rest.head? = some '!' ∧ lx1.rest.get? 1 = some '-' ∧ lx1.rest.get? 2 = some '-' then
        let r := parseCommentP { st with lx := lx1 }
        some (some r.1, r.2)
      else if lx1.rest.head? = some '/' then
        some (none, { st with lx := lx1 })
      else
        match parseTagName lx1 with
        | (none, lx2) => some (none, addErr { st with lx := lx2 } "期望标签名")
        | (some tag, lx2) =>
          match parseAttributesF fuel { st with lx := lx2 } with
          | none => none
          | some (attrs, st3) =>
            let lx4 := selfCloseAdvance st3.lx
            match consumeChar lx4 '>' with
            | none => some (none, addErr { st3 with lx := lx4 } "期望 \">\"")
            | some lx5 =>
              let posRec : SrcPos := ⟨startP.pos, lx5.pos, startP.line, startP.col⟩
              if st3.lx.rest.head? = some '/' ∧ st3.lx.rest.get? 1 = some '>' then
                some (some (ASTNode.element tag (processAttributes attrs) [] posRec),
                  { st3 with lx := lx5 })
              else
                match parseChildrenF fuel tag { st3 with lx := lx5 } with
                | none => none
                | some (children, st6) =>
                  some (some (ASTNode.element tag (processAttributes attrs) children posRec), st6)

/-- Models the `parseChildren` loop: skip whitespace; stop at end of input;
on `</` parse the end tag and stop — recording a mismatch error when its
name differs from the open tag; otherwise parse one child node and
continue. -/
def parseChildrenF : Nat → String → PSt → Option (List ASTNode × PSt)
  | 0, _, _ => none
  | fuel + 1, tag, st =>
    let st1 := { st with lx := skipWs st.lx }
    if st1.lx.rest.head? = none then some ([], st1)
    else if st1.lx.rest.head? = some '<' ∧ st1.lx.rest.get? 1 = some '/' then
      let r := parseEndTagP st1
      if r.1 = some tag then some ([], r.2)
      else some ([], addErr r.2 (mismatchMsg tag r.1))
    else
      match parseNodeF fuel st1 with
      | none => none
      | some (child, st2) =>
        match parseChildrenF fuel tag st2 with
        | none => none
        | some (rest, st3) => some (child.toList ++ rest, st3)

end

/-- Models the top-level `parse` loop: skip whitespace, stop at end of
input, and append each parsed node to the forest. -/
def parseLoopF : Nat → PSt → List ASTNode → Option (List ASTNode × PSt)
  | 0, _, _ => none
  | fuel + 1, st, acc =>
    if st.lx.rest.head? = none then some (acc, st)
    else
      let st1 := { st with lx := skipWs st.lx }
      if st1.lx.rest.head? = none then some (acc, st1)
      else
        match parseNodeF fuel st1 with
        | none => none
        | some (node, st2) => parseLoopF fuel st2 (acc ++ node.toList)

/-- The parse result `{ast, errors, warnings}`. -/
structure ParseResult where
  ast : List ASTNode
  errors : List String
  warnings : List String
deriving Repr

/-- Models `parseMpxTemplate`: run the parser with sufficient fuel (the
choice `length + 3` is proved sufficient below, so the `none` case never
occurs). -/
def parseMpxTemplate (s : String) : Option ParseResult :=
  let st0 : PSt := ⟨⟨s.data, 1, 1, 0⟩, [], []⟩
  match parseLoopF (s.data.length + 3) st0 [] with
  | none => none
  | some (ast, st) => some ⟨ast, st.errors, st.warnings⟩

/-! ## MpxToVueConverter -/

/-- Models `convertTagName`: the fixed MPX-to-Vue tag mapping; unmapped (or
falsy-mapped) names pass through. -/
def convertTagName (mpxTag : String) : String :=
  let tagMapping : List (String × String) :=
    [("view", "div"), ("text", "span"), ("image", "img"), ("navigator", "router-link"),
     ("button", "button"), ("input", "input"), ("textarea", "textarea"),
     ("scroll-view", "div"), ("swiper", "div"), ("swiper-item", "div"),
     ("picker", "select"), ("picker-view", "div"), ("slider", "input"),
     ("switch", "input"), ("checkbox", "input"), ("radio", "input"),
     ("form", "form"), ("label", "label")]
  match jsGet tagMapping mpxTag with
  | some v => if v = "" then mpxTag else v
  | none => mpxTag

/-- The static attribute-name mapping table of `convertAttribute`. -/
def attrMapping : List (String × String) :=
  [("wx:key", "key"), ("hover-class", ":class"), ("hover-start-time", ""),
   ("hover-stay-time", ""), ("scroll-x", ""), ("scroll-y", ""),
   ("scroll-top", ":scroll-top"), ("scroll-left", ":scroll-left"),
   ("enable-back-to-top", ""), ("bindscroll", "@scroll"), ("bindinput", "@input"),
   ("bindchange", "@change"), ("bindblur", "@blur"), ("bindfocus", "@focus")]

/-- Models `convertAttribute`: map the name through the table (a falsy table
value falls back to the original name, after which the skip branch is
unreachable), then render `name="value"`; the source branches for `src` / `class` /
`id` / `style` special cases all produce this same shape. -/
def convertAttribute (name value : String) : String :=
  let vueName :=
    match jsGet attrMapping name with
    | some v => if v = "" then name else v
    | none => name
  if vueName = "" then ""
  else if name = "src" ∧ value ≠ "" then vueName ++ "=\"" ++ value ++ "\""
  else if name = "class" ∨ name = "id" ∨ name = "style" then vueName ++ "=\"" ++ value ++ "\""
  else vueName ++ "=\"" ++ value ++ "\""

/-- Models `convertExpression`: a value that starts with the doubled left
brace and ends with the doubled right brace has the delimiters stripped
(`slice(2, -2)`) and is trimmed; anything else passes through. -/
def convertExpression (expr : String) : String :=
  let cs := expr.data
  if cs.take 2 = [lbrace, lbrace] ∧ cs.reverse.take 2 = [rbrace, rbrace] then
    jsTrim (String.mk ((cs.drop 2).take (cs.length - 4)))
  else expr

/-- Models `convertDirective`: the `switch` from MPX directive names to Vue
directive text. -/
def convertDirective (name : String) (d : DirectiveEntry) : String :=
  if name = "wx:if" then "v-if=\"" ++ convertExpression d.value ++ "\""
  else if name = "wx:elif" then "v-else-if=\"" ++ convertExpression d.value ++ "\""
  else if name = "wx:else" then "v-else"
  else if name = "wx:for" then "v-for=\"(item, index) in " ++ convertExpression d.value ++ "\""
  else if name = "wx:key" then ":key=\"" ++ d.value ++ "\""
  else if name = "wx:model" then "v-model=\"" ++ convertExpression d.value ++ "\""
  else if name = "bindtap" ∨ name = "catchtap" then "@click=\"" ++ d.value ++ "\""
  else if name = "bindinput" then "@input=\"" ++ d.value ++ "\""
  else if name = "bindchange" then "@change=\"" ++ d.value ++ "\""
  else if name = "bindfocus" then "@focus=\"" ++ d.value ++ "\""
  else if name = "bindblur" then "@blur=\"" ++ d.value ++ "\""
  else if name = "@tap" then "@click=\"" ++ d.value ++ "\""
  else if jsStartsWith name "bind" then
    "@" ++ String.mk (name.data.drop 4) ++ "=\"" ++ d.value ++ "\""
  else if jsStartsWith name "catch" then
    "@" ++ String.mk (name.data.drop 5) ++ ".stop=\"" ++ d.value ++ "\""
  else if jsStartsWith name "@" then
    "@" ++ String.mk (name.data.drop 1) ++ "=\"" ++ d.value ++ "\""
  else name ++ "=\"" ++ d.value ++ "\""

/-- Models `convertAttributes`: push the converted plain attributes (from
`props`) and then the converted directives (from `directives`), skipping
empty renderings, and join with single spaces.  `attributesAll` is never
read. -/
def convertAttributes (a : ElemAttributes) : String :=
  let parts1 : List String :=
    match a.props with
    | none => []
    | some ps =>
      ps.foldl (fun acc p =>
        let v := convertAttribute p.1 p.2
        if v = "" then acc else acc ++ [v]) []
  let parts2 : List String :=
    match a.directives with
    | none => parts1
    | some ds =>
      ds.foldl (fun acc p =>
        let v := convertDirective p.1 p.2
        if v = "" then acc else acc ++ [v]) parts1
  String.intercalate " " parts2

/-- Models `isSelfClosingTag`: the fixed void-tag set. -/
def isSelfClosingTag (t : String) : Bool :=
  ["img", "input", "br", "hr", "meta", "link", "area", "base", "col",
   "embed", "source", "track", "wbr"].contains t

/-- Converter state: the output buffer and the indent level (an integer in
the source; it never goes negative on converter-produced traversals). -/
structure CvSt where
  output : String
  indentLevel : Int
deriving Repr, DecidableEq

/-- Models `writeLine`: append the current indentation, the content and a
newline. -/
def writeLine (st : CvSt) (content : String) : CvSt :=
  { st with output :=
      st.output ++ String.mk (List.replicate (st.indentLevel * 2).toNat ' ') ++ content ++ "\n" }

/-- Models the `isStart` half of `writeElement`: emit the open tag; a
childless element whose mapped tag is in the void-tag set is rendered
self-closing, otherwise `>` is emitted and the indent level grows. -/
def writeElementOpen (st : CvSt) (name : String) (attrs : ElemAttributes)
    (children : List ASTNode) : CvSt :=
  let tagName := convertTagName name
  let tag0 := "<" ++ tagName
  let attrStr := convertAttributes attrs
  let tag := if attrStr = "" then tag0 else tag0 ++ " " ++ attrStr
  if children.isEmpty ∧ isSelfClosingTag tagName then writeLine st (tag ++ " />")
  else
    let st1 := writeLine st (tag ++ ">")
    { st1 with indentLevel := st1.indentLevel + 1 }

/-- Models the close-tag half of `writeElement`: drop the indent level and
emit the close tag. -/
def writeElementClose (st : CvSt) (name : String) : CvSt :=
  let st1 := { st with indentLevel := st.indentLevel - 1 }
  writeLine st1 ("</" ++ convertTagName name ++ ">")

/-- Models `convertInterpolation`: text interpolation syntax is identical in
Vue, so text passes through. -/
def convertInterpolation (t : String) : String := t

/-- Models `writeText`: write the trimmed content when non-empty. -/
def writeTextNode (st : CvSt) (content : String) : CvSt :=
  let c := jsTrim content
  if c = "" then st else writeLine st (convertInterpolation c)

/-- Models `writeComment`. -/
def writeCommentNode (st : CvSt) (content : String) : CvSt :=
  writeLine st ("<!-- " ++ content ++ " -->")

mutual

/-- The traversal of `convertToVue` specialised to the two converter
enter/exit callbacks: enter writes the node, exit writes the close tag of an
element that had children. -/
def cvNode (st : CvSt) : ASTNode → CvSt
  | ASTNode.element nm attrs ch _ =>
    let st1 := writeElementOpen st nm attrs ch
    let st2 := cvList st1 ch
    if ch.length > 0 then writeElementClose st2 nm else st2
  | ASTNode.text c _ => writeTextNode st c
  | ASTNode.comment c _ => writeCommentNode st c

/-- Conversion of a node list in order. -/
def cvList (st : CvSt) : List ASTNode → CvSt
  | [] => st
  | n :: ns => cvList (cvNode st n) ns

end

/-- Models `convertMpxToVue`: run the traversal from an empty buffer and
trim the result. -/
def convertMpxToVue (ast : List ASTNode) : String :=
  jsTrim (cvList ⟨"", 0⟩ ast).output

/-! ## Ref annotator (`addRef.ts`)

The TypeScript `addRefToNode` copies a node with `{...node}` and its
attribute record with `{...node.attributes}`.  The spread is shallow: the
`props` field of the copy still references the *same* object as the
`props` of the original node, so the subsequent write of `wx:ref` mutates the
original AST whenever the original already had a `props` object (the
`attributesAll` array, by contrast, is re-created with `[...]` before being
modified, and a fresh `props` object is created on the copy when the
original had none).  To capture this in a pure setting, `addRefToNodeM`
returns both the annotated node and the value of the *original* node after
the call. -/

/-- The `wx:ref` attribute entry pushed into `attributesAll` when none
exists. -/
def refAttrEntry (rv : String) : Attribute :=
  { name := "wx:ref", value := rv, isDirective := true,
    directive := some { name := "wx:ref", value := rv, modifiers := [] } }

/-- Models the `attributesAll` update: replace the value of the first
existing `wx:ref` entry (keeping its other fields), otherwise push a new
directive-style entry. -/
def updateAllRef : List Attribute → String → List Attribute
  | [], rv => [refAttrEntry rv]
  | a :: rest, rv =>
    if a.name = "wx:ref" then { a with value := rv } :: rest
    else a :: updateAllRef rest rv

mutual

/-- Models `addRefToNode` together with its aliasing side effect.  First
component: the returned annotated node.  Second component: the original
value of the original node after the call (identical except that an element with a
present `props` object has `wx:ref` written into that shared object, and
its element children are mutated recursively). -/
def addRefToNodeM : ASTNode → String → ASTNode × ASTNode
  | ASTNode.element nm attrs ch pos, refPath =>
    let rv := "devtools_" ++ refPath ++ "_" ++ nm
    let newProps : Option (List (String × String)) :=
      if nm ≠ "" then some (jsSet (attrs.props.getD []) "wx:ref" rv) else attrs.props
    let newAll : List Attribute :=
      if nm ≠ "" then updateAllRef attrs.attributesAll rv else attrs.attributesAll
    let origProps : Option (List (String × String)) :=
      if nm ≠ "" ∧ attrs.props.isSome then some (jsSet (attrs.props.getD []) "wx:ref" rv)
      else attrs.props
    let r := addRefChildrenM refPath 0 ch
    (ASTNode.element nm ⟨attrs.directives, newProps, newAll⟩ r.1 pos,
      ASTNode.element nm ⟨attrs.directives, origProps, attrs.attributesAll⟩ r.2 pos)
  | ASTNode.text c pos, _ => (ASTNode.text c pos, ASTNode.text c pos)
  | ASTNode.comment c pos, _ => (ASTNode.comment c pos, ASTNode.comment c pos)

/-- The `children.map((child, index) => ...)` recursion of `addRefToNode`:
an element child at (all-children) index `i` is annotated with path
`refPath + "-" + (i+1)`; text and comment children are copied as-is.  The
running index starts at `i0`.  Returns the annotated children and the
post-call values of the original children. -/
def addRefChildrenM (refPath : String) (i0 : Nat) :
    List ASTNode → List ASTNode × List ASTNode
  | [] => ([], [])
  | c :: cs =>
    let hd : ASTNode × ASTNode :=
      match c with
      | ASTNode.element nm a ch p =>
        addRefToNodeM (ASTNode.element nm a ch p)
          (refPath ++ "-" ++ toString (i0 + 1))
      | ASTNode.text s p => (ASTNode.text s p, ASTNode.text s p)
      | ASTNode.comment s p => (ASTNode.comment s p, ASTNode.comment s p)
    let tl := addRefChildrenM refPath (i0 + 1) cs
    (hd.1 :: tl.1, hd.2 :: tl.2)

end

/-- Models `addRef`: annotate every top-level node with path `"1"`.  First
component: the annotated forest; second: the original forest after the
call. -/
def addRefM (ast : List ASTNode) : List ASTNode × List ASTNode :=
  ((ast.map (fun n => (addRefToNodeM n "1").1)), (ast.map (fun n => (addRefToNodeM n "1").2)))

/-- The annotated forest returned by `addRef`. -/
def addRef (ast : List ASTNode) : List ASTNode :=
  (addRefM ast).1

/-! ## Basic scanner lemmas -/

theorem advance1_rest (σ : LexState) : (advance1 σ).rest = σ.rest.tail := by
  unfold advance1
  match h : σ.rest with
  | [] => simp
  | c :: cs => by_cases hc : c = '\n' <;> simp [hc]

theorem advance1_le (σ : LexState) : (advance1 σ).rest.length ≤ σ.rest.length := by
  rw [advance1_rest]
  cases σ.rest <;> simp

theorem advanceN_rest (n : Nat) (σ : LexState) : (advanceN σ n).rest = σ.rest.drop n := by
  induction n generalizing σ with
  | zero => simp [advanceN]
  | succ m ih =>
    show (advanceN (advance1 σ) m).rest = _
    rw [ih, advance1_rest, ← List.drop_one, List.drop_drop, Nat.add_comm]

theorem advanceN_len (n : Nat) (σ : LexState) :
    (advanceN σ n).rest.length = σ.rest.length - n := by
  rw [advanceN_rest, List.length_drop]

theorem advanceN_le (n : Nat) (σ : LexState) :
    (advanceN σ n).rest.length ≤ σ.rest.length := by
  rw [advanceN_len]
  omega

theorem length_takeWhile_le (p : Char → Bool) (l : List Char) :
    (l.takeWhile p).length ≤ l.length := by
  induction l with
  | nil => simp [List.takeWhile]
  | cons c cs ih =>
    by_cases h : p c <;> simp [List.takeWhile, h]
    omega

theorem drop_length_takeWhile (p : Char → Bool) (l : List Char) :
    l.drop (l.takeWhile p).length = l.dropWhile p := by
  induction l with
  | nil => rfl
  | cons c cs ih => by_cases h : p c <;> simp [List.takeWhile, List.dropWhile, h, ih]

theorem skipWs_rest (σ : LexState) : (skipWs σ).rest = σ.rest.dropWhile isJsSpace := by
  unfold skipWs
  rw [advanceN_rest, drop_length_takeWhile]

theorem skipWs_le (σ : LexState) : (skipWs σ).rest.length ≤ σ.rest.length := by
  unfold skipWs
  exact advanceN_le _ _

theorem consumeChar_some {σ σ' : LexState} {c : Char}
    (h : consumeChar σ c = some σ') :
    σ'.rest = σ.rest.tail ∧ σ'.rest.length + 1 = σ.rest.length := by
  unfold consumeChar at h
  split at h
  · rename_i hh
    cases h
    constructor
    · exact advance1_rest σ
    · rw [advance1_rest]
      cases hr : σ.rest with
      | nil => rw [hr] at hh; simp at hh
      | cons a l => simp [hr]
  · cases h

theorem parseQuotedString_le (q : Char) (σ : LexState) :
    (parseQuotedString q σ).2.rest.length ≤ σ.rest.length := by
  unfold parseQuotedString
  dsimp only
  split
  · exact le_trans (advance1_le _) (le_trans (advanceN_le _ _) (advance1_le _))
  · exact le_trans (advanceN_le _ _) (advance1_le _)

theorem parseTagName_le (σ : LexState) : (parseTagName σ).2.rest.length ≤ σ.rest.length := by
  unfold parseTagName
  exact advanceN_le _ _

theorem parseTagName_some_lt {σ : LexState} {t : String}
    (h : (parseTagName σ).1 = some t) :
    (parseTagName σ).2.rest.length + 1 ≤ σ.rest.length := by
  unfold parseTagName at h ⊢
  dsimp only at h ⊢
  split at h
  · cases h
  · rename_i hne
    rw [advanceN_len]
    have h1 : (σ.rest.takeWhile isTagChar).length ≤ σ.rest.length :=
      length_takeWhile_le _ _
    have h2 : (σ.rest.takeWhile isTagChar).length ≠ 0 := by
      intro h0
      exact hne (List.isEmpty_iff.mpr (List.length_eq_zero.mp h0))
    omega

theorem parseAttributeName_le (σ : LexState) :
    (parseAttributeName σ).2.rest.length ≤ σ.rest.length := by
  unfold parseAttributeName
  exact advanceN_le _ _

theorem parseAttributeName_some_lt {σ : LexState} {t : String}
    (h : (parseAttributeName σ).1 = some t) :
    (parseAttributeName σ).2.rest.length + 1 ≤ σ.rest.length := by
  unfold parseAttributeName at h ⊢
  dsimp only at h ⊢
  split at h
  · cases h
  · rename_i hne
    rw [advanceN_len]
    have h1 : (σ.rest.takeWhile isAttrNameChar).length ≤ σ.rest.length :=
      length_takeWhile_le _ _
    have h2 : (σ.rest.takeWhile isAttrNameChar).length ≠ 0 := by
      intro h0
      exact hne (List.isEmpty_iff.mpr (List.length_eq_zero.mp h0))
    omega

theorem parseAttributeValue_le (σ : LexState) :
    (parseAttributeValue σ).2.rest.length ≤ σ.rest.length := by
  unfold parseAttributeValue
  dsimp only
  split
  · exact parseQuotedString_le _ _
  · split
    · exact parseQuotedString_le _ _
    · exact advanceN_le _ _

theorem parseAttribute_after_name_le (σ1 : LexState) :
    (if (skipWs σ1).rest.head? = some '=' then
      let σa := advance1 (skipWs σ1)
      let σb := skipWs σa
      let r := parseAttributeValue σb
      (r.1.getD "", r.2)
    else ("", skipWs σ1)).2.rest.length ≤ σ1.rest.length := by
  split
  · dsimp only
    exact le_trans (parseAttributeValue_le _)
      (le_trans (skipWs_le _) (le_trans (advance1_le _) (skipWs_le _)))
  · exact skipWs_le _

theorem parseAttribute_le (σ : LexState) :
    (parseAttribute σ).2.rest.length ≤ σ.rest.length := by
  unfold parseAttribute
  split
  · rename_i σ1 heq
    have : σ1 = (parseAttributeName σ).2 := by rw [heq]
    rw [this]
    exact parseAttributeName_le _
  · rename_i name σ1 heq
    have hσ1 : σ1 = (parseAttributeName σ).2 := by rw [heq]
    have hle1 : σ1.rest.length ≤ σ.rest.length := by
      rw [hσ1]; exact parseAttributeName_le _
    have h2 := parseAttribute_after_name_le σ1
    dsimp only at h2 ⊢
    omega

theorem parseAttribute_some_lt {σ : LexState} {a : Attribute}
    (h : (parseAttribute σ).1 = some a) :
    (parseAttribute σ).2.rest.length + 1 ≤ σ.rest.length := by
  unfold parseAttribute at h ⊢
  split at h
  · cases h
  · rename_i name σ1 heq
    have hσ1 : σ1 = (parseAttributeName σ).2 := by rw [heq]
    have hname : (parseAttributeName σ).1 = some name := by rw [heq]
    have hlt : σ1.rest.length + 1 ≤ σ.rest.length := by
      rw [hσ1]; exact parseAttributeName_some_lt hname
    have h2 := parseAttribute_after_name_le σ1
    dsimp only at h2 ⊢
    omega

theorem parseTextP_le (st : PSt) : (parseTextP st).2.lx.rest.length ≤ st.lx.rest.length := by
  unfold parseTextP
  exact advanceN_le _ _

theorem parseTextP_lt {st : PSt} (hne : st.lx.rest ≠ []) (hlt : st.lx.rest.head? ≠ some '<') :
    (parseTextP st).2.lx.rest.length + 1 ≤ st.lx.rest.length := by
  unfold parseTextP
  dsimp only
  rw [advanceN_len]
  have h1 : (st.lx.rest.takeWhile (fun c => c ≠ '<')).length ≤ st.lx.rest.length :=
    length_takeWhile_le _ _
  have h2 : (st.lx.rest.takeWhile (fun c => c ≠ '<')).length ≠ 0 := by
    cases hr : st.lx.rest with
    | nil => exact absurd hr hne
    | cons c cs =>
      have hc : c ≠ '<' := by
        intro hcc
        apply hlt
        rw [hr, hcc]
        rfl
      simp [hr, List.takeWhile, hc]
  omega

theorem parseCommentP_le (st : PSt) :
    (parseCommentP st).2.lx.rest.length ≤ st.lx.rest.length := by
  unfold parseCommentP
  exact le_trans (advanceN_le _ _) (advanceN_le _ _)

theorem parseEndTagP_le (st : PSt) :
    (parseEndTagP st).2.lx.rest.length ≤ st.lx.rest.length := by
  unfold parseEndTagP
  split
  · exact le_refl _
  · rename_i lx1 h1
    have hc1 := (consumeChar_some h1).2
    split
    · dsimp only
      omega
    · rename_i lx2 h2
      have hc2 := (consumeChar_some h2).2
      have h3 : (parseTagName lx2).2.rest.length ≤ lx2.rest.length := parseTagName_le _
      have h4 : (skipWs (parseTagName lx2).2).rest.length ≤
          (parseTagName lx2).2.rest.length := skipWs_le _
      have h5 : ((consumeChar (skipWs (parseTagName lx2).2) '>').getD
          (skipWs (parseTagName lx2).2)).rest.length ≤
          (skipWs (parseTagName lx2).2).rest.length := by
        cases hcc : consumeChar (skipWs (parseTagName lx2).2) '>' with
        | none => simp
        | some l =>
          simp only [Option.getD_some]
          have := (consumeChar_some hcc).2
          omega
      dsimp only
      omega

/-! ## Parser monotonicity and fuel sufficiency -/

theorem addErr_lx (st : PSt) (m : String) : (addErr st m).lx = st.lx := rfl

theorem parseAttributesF_le :
    ∀ (fuel : Nat) {st : PSt} {r : List Attribute × PSt},
      parseAttributesF fuel st = some r → r.2.lx.rest.length ≤ st.lx.rest.length := by
  intro fuel
  induction fuel with
  | zero => intro st r h; cases h
  | succ fuel ih =>
    intro st r h
    unfold parseAttributesF at h
    dsimp only at h
    split at h
    · cases h
      exact skipWs_le _
    · split at h
      · rename_i lx2 heq
        cases h
        have : lx2 = (parseAttribute (skipWs st.lx) ).2 := by rw [heq]
        subst this
        exact le_trans (parseAttribute_le _) (skipWs_le _)
      · rename_i a lx2 heq
        split at h
        · cases h
        · rename_i rest st3 hrec
          cases h
          have h2 : lx2 = (parseAttribute (skipWs st.lx)).2 := by rw [heq]
          have h3 := ih hrec
          have h4 : lx2.rest.length ≤ (skipWs st.lx).rest.length := by
            rw [h2]; exact parseAttribute_le _
          have h5 := skipWs_le st.lx
          dsimp only at h3 ⊢
          omega

theorem parseAttributesF_isSome :
    ∀ (fuel : Nat) (st : PSt), st.lx.rest.length + 1 ≤ fuel →
      (parseAttributesF fuel st).isSome := by
  intro fuel
  induction fuel with
  | zero => intro st h; omega
  | succ fuel ih =>
    intro st h
    unfold parseAttributesF
    dsimp only
    split
    · simp
    · split
      · simp
      · rename_i a lx2 heq
        have h1 : (parseAttribute (skipWs st.lx)).1 = some a := by rw [heq]
        have h2 : lx2 = (parseAttribute (skipWs st.lx)).2 := by rw [heq]
        have h3 : lx2.rest.length + 1 ≤ (skipWs st.lx).rest.length := by
          rw [h2]; exact parseAttribute_some_lt h1
        have h4 := skipWs_le st.lx
        have h5 := ih { st with lx := lx2 } (by dsimp only; omega)
        obtain ⟨r, hr⟩ := Option.isSome_iff_exists.mp h5
        rw [hr]
        cases r
        simp

theorem selfCloseAdvance_le (σ : LexState) :
    (selfCloseAdvance σ).rest.length ≤ σ.rest.length := by
  unfold selfCloseAdvance
  split
  · exact advance1_le _
  · exact le_refl _

theorem parse_mono :
    ∀ (fuel : Nat),
      (∀ (st : PSt) (r : Option ASTNode × PSt),
        parseNodeF fuel st = some r → r.2.lx.rest.length ≤ st.lx.rest.length) ∧
      (∀ (st : PSt) (r : Option ASTNode × PSt),
        parseElementF fuel st = some r → r.2.lx.rest.length ≤ st.lx.rest.length) ∧
      (∀ (tag : String) (st : PSt) (r : List ASTNode × PSt),
        parseChildrenF fuel tag st = some r → r.2.lx.rest.length ≤ st.lx.rest.length) := by
  intro fuel
  induction fuel with
  | zero =>
    refine ⟨?_, ?_, ?_⟩
    · intro st r h
      cases h
    · intro st r h
      cases h
    · intro tag st r h
      cases h
  | succ fuel ih =>
    obtain ⟨ihN, ihE, ihC⟩ := ih
    refine ⟨?_, ?_, ?_⟩
    · -- parseNodeF
      intro st r h
      unfold parseNodeF at h
      split at h
      · exact ihE st r h
      · cases h
        exact parseTextP_le st
    · -- parseElementF
      intro st r h
      unfold parseElementF at h
      dsimp only at h
      split at h
      · cases h
        exact le_refl _
      · rename_i lx1 hc1
        have hlx1 := (consumeChar_some hc1).2
        split at h
        · cases h
          have := parseCommentP_le { st with lx := lx1 }
          dsimp only at this ⊢
          omega
        · split at h
          · cases h
            dsimp only
            omega
          · split at h
            · rename_i lx2 heq
              cases h
              have h2 : lx2 = (parseTagName lx1).2 := by rw [heq]
              have h3 : lx2.rest.length ≤ lx1.rest.length := by
                rw [h2]; exact parseTagName_le _
              rw [addErr_lx]
              dsimp only
              omega
            · rename_i tag lx2 heq
              have h2 : lx2 = (parseTagName lx1).2 := by rw [heq]
              have h3 : lx2.rest.length ≤ lx1.rest.length := by
                rw [h2]; exact parseTagName_le _
              split at h
              · cases h
              · rename_i attrs st3 hattrs
                have h4 := parseAttributesF_le fuel hattrs
                dsimp only at h4
                have hlx4 := selfCloseAdvance_le st3.lx
                split at h
                · cases h
                  rw [addErr_lx]
                  dsimp only
                  omega
                · rename_i lx5 hc5
                  have hlx5 := (consumeChar_some hc5).2
                  split at h
                  · cases h
                    dsimp only
                    omega
                  · split at h
                    · cases h
                    · rename_i children st6 hch
                      cases h
                      have h6 := ihC tag _ _ hch
                      dsimp only at h6 ⊢
                      omega
    · -- parseChildrenF
      intro tag st r h
      unfold parseChildrenF at h
      dsimp only at h
      split at h
      · cases h
        exact skipWs_le _
      · split at h
        · have hEnd := parseEndTagP_le { st with lx := skipWs st.lx }
          dsimp only at hEnd
          have h5 := skipWs_le st.lx
          split at h
          · cases h
            try dsimp only
            omega
          · cases h
            rw [addErr_lx]
            try dsimp only
            omega
        · split at h
          · cases h
          · rename_i child st2 hnode
            split at h
            · cases h
            · rename_i rest2 st3 hrec
              cases h
              have h6 := ihN _ _ hnode
              have h7 := ihC tag _ _ hrec
              have h8 := skipWs_le st.lx
              dsimp only at h6 h7 ⊢
              omega

theorem parseElementF_lt :
    ∀ (fuel : Nat) (st : PSt) (r : Option ASTNode × PSt),
      st.lx.rest.head? = some '<' → parseElementF fuel st = some r →
      r.2.lx.rest.length + 1 ≤ st.lx.rest.length := by
  intro fuel st r hhead h
  match fuel with
  | 0 => cases h
  | fuel + 1 =>
    unfold parseElementF at h
    dsimp only at h
    split at h
    · rename_i hc1
      unfold consumeChar at hc1
      rw [hhead] at hc1
      simp at hc1
    · rename_i lx1 hc1
      have hlx1 := (consumeChar_some hc1).2
      split at h
      · cases h
        have := parseCommentP_le { st with lx := lx1 }
        dsimp only at this ⊢
        omega
      · split at h
        · cases h
          dsimp only
          omega
        · split at h
          · rename_i lx2 heq
            cases h
            have h2 : lx2 = (parseTagName lx1).2 := by rw [heq]
            have h3 : lx2.rest.length ≤ lx1.rest.length := by
              rw [h2]; exact parseTagName_le _
            rw [addErr_lx]
            dsimp only
            omega
          · rename_i tag lx2 heq
            have h2 : lx2 = (parseTagName lx1).2 := by rw [heq]
            have h3 : lx2.rest.length ≤ lx1.rest.length := by
              rw [h2]; exact parseTagName_le _
            split at h
            · cases h
            · rename_i attrs st3 hattrs
              have h4 := parseAttributesF_le fuel hattrs
              dsimp only at h4
              have hlx4 := selfCloseAdvance_le st3.lx
              split at h
              · cases h
                rw [addErr_lx]
                dsimp only
                omega
              · rename_i lx5 hc5
                have hlx5 := (consumeChar_some hc5).2
                split at h
                · cases h
                  dsimp only
                  omega
                · split at h
                  · cases h
                  · rename_i children st6 hch
                    cases h
                    have h6 := (parse_mono fuel).2.2 tag _ _ hch
                    dsimp only at h6 ⊢
                    omega

theorem parseNodeF_lt :
    ∀ (fuel : Nat) (st : PSt) (r : Option ASTNode × PSt),
      st.lx.rest ≠ [] → parseNodeF fuel st = some r →
      r.2.lx.rest.length + 1 ≤ st.lx.rest.length := by
  intro fuel st r hne h
  match fuel with
  | 0 => cases h
  | fuel + 1 =>
    unfold parseNodeF at h
    split at h
    · rename_i hhead
      exact parseElementF_lt fuel st r hhead h
    · rename_i hhead
      cases h
      exact parseTextP_lt hne hhead

theorem parse_isSome :
    ∀ (fuel : Nat),
      (∀ (st : PSt), st.lx.rest.length + 2 ≤ fuel → (parseNodeF fuel st).isSome) ∧
      (∀ (st : PSt), st.lx.rest.length + 1 ≤ fuel → (parseElementF fuel st).isSome) ∧
      (∀ (tag : String) (st : PSt), st.lx.rest.length + 3 ≤ fuel →
        (parseChildrenF fuel tag st).isSome) := by
  intro fuel
  induction fuel with
  | zero =>
    refine ⟨?_, ?_, ?_⟩
    · intro st h
      omega
    · intro st h
      omega
    · intro tag st h
      omega
  | succ fuel ih =>
    obtain ⟨ihN, ihE, ihC⟩ := ih
    refine ⟨?_, ?_, ?_⟩
    · -- parseNodeF
      intro st h
      unfold parseNodeF
      split
      · exact ihE st (by omega)
      · simp
    · -- parseElementF
      intro st h
      unfold parseElementF
      dsimp only
      split
      · simp
      · rename_i lx1 hc1
        have hlx1 := (consumeChar_some hc1).2
        split
        · simp
        · split
          · simp
          · split
            · simp
            · rename_i tag lx2 heq
              have h2 : lx2 = (parseTagName lx1).2 := by rw [heq]
              have htag : (parseTagName lx1).1 = some tag := by rw [heq]
              have h3 : lx2.rest.length + 1 ≤ lx1.rest.length := by
                rw [h2]; exact parseTagName_some_lt htag
              have hA := parseAttributesF_isSome fuel { st with lx := lx2 }
                (by dsimp only; omega)
              obtain ⟨⟨attrs, st3⟩, hattrs⟩ := Option.isSome_iff_exists.mp hA
              rw [hattrs]
              dsimp only
              have h4 := parseAttributesF_le fuel hattrs
              dsimp only at h4
              have hlx4 := selfCloseAdvance_le st3.lx
              cases hc5 : consumeChar (selfCloseAdvance st3.lx) '>' with
              | none => simp [hc5]
              | some lx5 =>
                have hlx5 := (consumeChar_some hc5).2
                dsimp only
                split
                · simp
                · have hch := ihC tag { st3 with lx := lx5 } (by dsimp only; omega)
                  obtain ⟨⟨children, st6⟩, hch2⟩ := Option.isSome_iff_exists.mp hch
                  rw [hch2]
                  simp
    · -- parseChildrenF
      intro tag st h
      unfold parseChildrenF
      dsimp only
      split
      · simp
      · rename_i hne
        split
        · split
          · simp
          · simp
        · have h5 := skipWs_le st.lx
          have hN := ihN { st with lx := skipWs st.lx } (by dsimp only; omega)
          obtain ⟨⟨child, st2⟩, hnode⟩ := Option.isSome_iff_exists.mp hN
          rw [hnode]
          have hprog := parseNodeF_lt fuel { st with lx := skipWs st.lx } (child, st2)
            (by
              intro h0
              apply hne
              dsimp only at h0 ⊢
              rw [h0]
              rfl) hnode
          dsimp only at hprog
          have hC := ihC tag st2 (by omega)
          obtain ⟨⟨rest2, st3⟩, hrec⟩ := Option.isSome_iff_exists.mp hC
          dsimp only
          rw [hrec]
          simp

theorem parseLoopF_isSome :
    ∀ (fuel : Nat) (st : PSt) (acc : List ASTNode),
      st.lx.rest.length + 3 ≤ fuel → (parseLoopF fuel st acc).isSome := by
  intro fuel
  induction fuel with
  | zero =>
    intro st acc h
    omega
  | succ fuel ih =>
    intro st acc h
    unfold parseLoopF
    dsimp only
    split
    · simp
    · split
      · simp
      · rename_i hne1 hne2
        have h5 := skipWs_le st.lx
        have hN := (parse_isSome fuel).1 { st with lx := skipWs st.lx } (by dsimp only; omega)
        obtain ⟨⟨node, st2⟩, hnode⟩ := Option.isSome_iff_exists.mp hN
        rw [hnode]
        have hprog := parseNodeF_lt fuel { st with lx := skipWs st.lx } (node, st2)
          (by
            intro h0
            apply hne2
            dsimp only at h0 ⊢
            rw [h0]
            rfl) hnode
        dsimp only at hprog
        dsimp only
        exact ih st2 (acc ++ node.toList) (by omega)

/-! ## Accessors used by the claim statements -/

/-- The `props` record of an element node. -/
def propsOf : ASTNode → Option (List (String × String))
  | ASTNode.element _ a _ _ => a.props
  | _ => none

/-- Whether a node is an element (the `type === "element"` test). -/
def isElem : ASTNode → Bool
  | ASTNode.element _ _ _ _ => true
  | _ => false

/-- Descend from a node along a list of (all-children) indices; the empty
path addresses the node itself, and each index steps into the children of
an element. -/
def nodeAtNode : ASTNode → List Nat → Option ASTNode
  | n, [] => some n
  | ASTNode.element _ _ ch _, i :: rest =>
    match ch.get? i with
    | some c => nodeAtNode c rest
    | none => none
  | _, _ :: _ => none

/-- Descend a forest along a list of (all-children) indices; the empty path
addresses nothing, a path `i :: rest` picks the i-th top-level node and
descends along `rest`. -/
def nodeAt (ns : List ASTNode) : List Nat → Option ASTNode
  | [] => none
  | i :: rest =>
    match ns.get? i with
    | some n => nodeAtNode n rest
    | none => none

/-- The `wx:ref` prop of an optionally addressed element node. -/
def refOfOpt : Option ASTNode → Option String
  | some (ASTNode.element _ a _ _) => jsGet (a.props.getD []) "wx:ref"
  | _ => none

/-- The `wx:ref` prop of the node addressed by a path. -/
def refAt (f : List ASTNode) (π : List Nat) : Option String :=
  refOfOpt (nodeAt f π)

/-- The ref path string assigned by `addRef` along an index path: `"1"` for
a top-level node (whatever its index), extended with `-(i+1)` for the
all-children index `i` at each deeper level. -/
def pathOf (rest : List Nat) : String :=
  rest.foldl (fun s j => s ++ "-" ++ toString (j + 1)) "1"

/-- Modelled from the spec (§4.5): the number of Element children strictly
before the (all-children) index `i`, i.e. the child index the spec says the
annotator uses, "counting only Element children". -/
def elemOnlyIndex (ns : List ASTNode) (i : Nat) : Nat :=
  ((ns.take i).filter isElem).length

/-! ## C1 -/

/-- C1: parsing the input string
`<input type="text" wx:model="{{ value }}" />` and converting the resulting
AST yields exactly `<input type="text" v-model="value" />`: the tag stays
`input`, the plain attribute passes through, `wx:model` becomes `v-model`
with the interpolation delimiters stripped and the expression trimmed, and
the childless element is rendered in self-closing form because `input` is
in the void-tag set. -/
theorem C1_wx_model_example :
    (parseMpxTemplate "<input type=\"text\" wx:model=\"\x7b\x7b value \x7d\x7d\" />").map
      (fun r => convertMpxToVue r.ast) =
      some "<input type=\"text\" v-model=\"value\" />" := by
  decide

/-! ## C2 -/

/-- C2: for every input string `parseMpxTemplate` returns a result
`{ast, errors, warnings}` — in this embedding, the fuel chosen by the entry
point always suffices, which is the never-raises/termination content of the
claim — and the anomalies of malformed markup (missing tag name, missing
`>`, mismatched close tag) are recorded in the `errors` list of the
returned result rather than thrown. -/
theorem C2_parse_total_and_records_errors :
    (∀ s : String, ∃ r : ParseResult, parseMpxTemplate s = some r) ∧
    (parseMpxTemplate "<>").map (fun r => r.errors.isEmpty) = some false ∧
    (parseMpxTemplate "<view").map (fun r => r.errors.isEmpty) = some false ∧
    (parseMpxTemplate "<view></div>").map (fun r => r.errors.isEmpty) = some false := by
  refine ⟨?_, by decide, by decide, by decide⟩
  intro s
  unfold parseMpxTemplate
  have h := parseLoopF_isSome (s.data.length + 3) ⟨⟨s.data, 1, 1, 0⟩, [], []⟩ []
    (by dsimp only; omega)
  obtain ⟨⟨ast, st⟩, hr⟩ := Option.isSome_iff_exists.mp h
  dsimp only
  rw [hr]
  exact ⟨_, rfl⟩

/-! ## C3 -/

/-- C3: when, while collecting the children of an open element `tag`, the
parser meets a close tag whose name differs from `tag`, it records exactly
one error naming the expected and the found tag (appended to the error list
after the end tag is consumed), stops collecting children immediately
(returning `[]`, so the children collected before this point are exactly
what the element keeps), and attaches nothing after the mismatched close
tag (the returned state sits right after it). -/
theorem C3_mismatch_stops_children (fuel : Nat) (tag : String) (st : PSt)
    (nm : Option String) (st2 : PSt)
    (h1 : (skipWs st.lx).rest.head? = some '<')
    (h2 : (skipWs st.lx).rest.get? 1 = some '/')
    (h3 : parseEndTagP { st with lx := skipWs st.lx } = (nm, st2))
    (h4 : nm ≠ some tag) :
    parseChildrenF (fuel + 1) tag st =
      some ([], addErr st2 (mismatchMsg tag nm)) := by
  unfold parseChildrenF
  dsimp only
  rw [h3]
  dsimp only
  rw [List.get?_eq_getElem?] at h2
  simp [h1, h2, h4]

/-- Witness for C3 at the concrete state `</span>x` inside an open `div`. -/
theorem C3_mismatch_stops_children_witness :
    parseChildrenF 1 "div" ⟨⟨"</span>x".data, 1, 1, 0⟩, [], []⟩ =
      some ([], addErr ⟨⟨['x'], 1, 8, 7⟩, [], []⟩ (mismatchMsg "div" (some "span"))) :=
  C3_mismatch_stops_children 0 "div" ⟨⟨"</span>x".data, 1, 1, 0⟩, [], []⟩
    (some "span") ⟨⟨['x'], 1, 8, 7⟩, [], []⟩
    (by decide) (by decide) (by decide) (by decide)

/-! ## C5 -/

/-- Concrete element with a present `props` object, the input showing the
aliasing bug of the annotator. -/
def c5Node : ASTNode :=
  ASTNode.element "view"
    ⟨none, some [("class", "box")], [classifyAttr "class" "box"]⟩ [] ⟨0, 0, 1, 1⟩

/-- C5 (code bug): `addRefToNode` claims (in its own comment) to deep-copy
the node "to avoid modifying the original AST", but `{...node.attributes}`
is a shallow copy whose `props` aliases the original object, so writing
`wx:ref` mutates the input forest: after the call the original
`props` has gained the `wx:ref` entry. -/
theorem C5_addRef_mutates_input :
    (addRefM [c5Node]).2.map propsOf =
      [some [("class", "box"), ("wx:ref", "devtools_1_view")]] ∧
    [c5Node].map propsOf = [some [("class", "box")]] ∧
    (addRefM [c5Node]).2.map propsOf ≠ [c5Node].map propsOf := by
  decide

/-! ## C6 counterexample -/

/-- C6 falsified at `<view>hi<text>a</text></view>`: the nested `text`
element sits at all-children index 1 but is the first Element child
(element-only index 0); the spec formula therefore predicts
`devtools_1-1_text` while the annotator writes `devtools_1-2_text`. -/
theorem C6_counterexample :
    (parseMpxTemplate "<view>hi<text>a</text></view>").map
      (fun r => refAt (addRef r.ast) [0, 1]) = some (some "devtools_1-2_text") ∧
    (parseMpxTemplate "<view>hi<text>a</text></view>").map
      (fun r =>
        match r.ast with
        | [ASTNode.element _ _ ch _] => some (elemOnlyIndex ch 1)
        | _ => none) = some (some 0) ∧
    some "devtools_1-2_text" ≠
      some ("devtools_" ++ "1" ++ "-" ++ toString (0 + 1) ++ "_" ++ "text") := by
  refine ⟨by decide, by decide, by decide⟩

/-! ## C8 counterexample -/

/-- C8 falsified at `<view a="1" a="2"/>`: the `attributesAll` of the element
has two entries but `props` keeps only the later duplicate, so
`|props| + |directives| = 1 ≠ 2`. -/
theorem C8_counterexample :
    (parseMpxTemplate "<view a=\"1\" a=\"2\"/>").map
      (fun r => r.ast.map (fun n =>
        match n with
        | ASTNode.element _ a _ _ =>
          some ((a.props.getD []).length, (a.directives.getD []).length,
            a.attributesAll.length)
        | _ => none)) = some [some (1, 0, 2)] ∧
    ¬ (1 + 0 = 2) := by
  refine ⟨by decide, by decide⟩

/-! ## C4 -/

/-- C4: the `wx:for` directive of an element is always emitted as the fixed-shape
loop binding `v-for="(item, index) in E"` — the per-item names are the
literal identifiers `item` and `index` whatever the directive value or
modifiers — where `E` is the value with its doubled-brace delimiters
stripped and trimmed when it is exactly so bracketed; `wx:key` is emitted
as a separate standalone `:key="..."` attribute, as the concrete
`wx:for`/`wx:key` element of Example 3 shows. -/
theorem C4_wx_for_fixed_shape :
    (∀ (v : String) (m : List String),
      convertDirective "wx:for" ⟨v, m⟩ =
        "v-for=\"(item, index) in " ++ convertExpression v ++ "\"") ∧
    (∀ (v : String) (m : List String),
      convertDirective "wx:key" ⟨v, m⟩ = ":key=\"" ++ v ++ "\"") ∧
    (∀ e : List Char,
      convertExpression (String.mk (lbrace :: lbrace :: (e ++ [rbrace, rbrace]))) =
        jsTrim (String.mk e)) ∧
    convertAttributes (processAttributes
      [classifyAttr "wx:for" "\x7b\x7b list \x7d\x7d", classifyAttr "wx:key" "id"]) =
      "v-for=\"(item, index) in list\" :key=\"id\"" := by
  refine ⟨fun v m => rfl, fun v m => rfl, ?_, by decide⟩
  intro e
  unfold convertExpression
  have hdata : (String.mk (lbrace :: lbrace :: (e ++ [rbrace, rbrace]))).data =
      lbrace :: lbrace :: (e ++ [rbrace, rbrace]) := rfl
  rw [hdata]
  have hc1 : (lbrace :: lbrace :: (e ++ [rbrace, rbrace])).take 2 = [lbrace, lbrace] := rfl
  have hc2 : (lbrace :: lbrace :: (e ++ [rbrace, rbrace])).reverse.take 2 =
      [rbrace, rbrace] := by
    simp [List.reverse_append]
  rw [if_pos ⟨hc1, hc2⟩]
  have hdrop : (lbrace :: lbrace :: (e ++ [rbrace, rbrace])).drop 2 =
      e ++ [rbrace, rbrace] := rfl
  have hlen : (lbrace :: lbrace :: (e ++ [rbrace, rbrace])).length - 4 = e.length := by
    simp
  rw [hdrop, hlen, List.take_left]

/-! ## C9 -/

/-- The plain-attribute parts the converter pushes, in `props` iteration
order. -/
def propParts (a : ElemAttributes) : List String :=
  ((a.props.getD []).map (fun p => convertAttribute p.1 p.2)).filter (fun v => v ≠ "")

/-- The directive parts the converter pushes, in `directives` iteration
order. -/
def dirParts (a : ElemAttributes) : List String :=
  ((a.directives.getD []).map (fun p => convertDirective p.1 p.2)).filter (fun v => v ≠ "")

theorem foldl_push_filter {α : Type} (f : α → String) :
    ∀ (l : List α) (acc : List String),
      l.foldl (fun acc p => let v := f p; if v = "" then acc else acc ++ [v]) acc =
        acc ++ (l.map f).filter (fun v => v ≠ "") := by
  intro l
  induction l with
  | nil =>
    intro acc
    simp
  | cons x xs ih =>
    intro acc
    by_cases h : f x = "" <;>
      simp only [List.foldl_cons, List.map_cons, List.filter_cons, h, ih] <;>
      simp [h]

/-- C9: the converter renders all plain attributes (iterated from `props`)
before all directives (iterated from `directives`) in the emitted open tag,
and the source order recorded in `attributesAll` is never consulted —
replacing `attributesAll` by anything leaves the rendered attribute string
unchanged. -/
theorem C9_props_before_directives :
    ∀ (a : ElemAttributes),
      convertAttributes a = String.intercalate " " (propParts a ++ dirParts a) ∧
      ∀ (allAttrs : List Attribute),
        convertAttributes ⟨a.directives, a.props, allAttrs⟩ = convertAttributes a := by
  intro a
  constructor
  · rcases a with ⟨dirs, props, allA⟩
    cases props <;> cases dirs <;>
      simp [convertAttributes, propParts, dirParts, foldl_push_filter]
  · intro allAttrs
    rfl

/-! ## C6 amended: path identifiers written by the annotator -/

theorem jsGet_map_self {α : Type} (k : String) (v : α) :
    ∀ (o : List (String × α)), o.any (fun p => p.1 = k) = true →
      jsGet (o.map (fun p => if p.1 = k then (k, v) else p)) k = some v := by
  intro o
  induction o with
  | nil =>
    intro h
    simp at h
  | cons p o' ih =>
    intro h
    by_cases hp : p.1 = k
    · simp [jsGet, List.find?, hp]
    · have h' : o'.any (fun q => q.1 = k) = true := by
        simp [List.any_cons, hp] at h
        simpa using h
      have := ih h'
      simp only [jsGet] at this ⊢
      simp [List.find?, hp, this]
      simpa [jsGet] using this

theorem jsGet_append_self {α : Type} (k : String) (v : α) :
    ∀ (o : List (String × α)), o.any (fun p => p.1 = k) = false →
      jsGet (o ++ [(k, v)]) k = some v := by
  intro o
  induction o with
  | nil =>
    intro _
    simp [jsGet, List.find?]
  | cons p o' ih =>
    intro h
    rw [List.any_cons] at h
    have hp : (decide (p.1 = k)) = false := by
      cases hd : (decide (p.1 = k)) with
      | true => rw [hd] at h; simp at h
      | false => rfl
    have h' : o'.any (fun q => q.1 = k) = false := by
      cases hd : o'.any (fun q => q.1 = k) with
      | true => rw [hd] at h; simp at h
      | false => rfl
    simp only [jsGet, List.cons_append, List.find?]
    rw [hp]
    simpa [jsGet] using ih h'

theorem jsGet_jsSet_self {α : Type} (o : List (String × α)) (k : String) (v : α) :
    jsGet (jsSet o k v) k = some v := by
  unfold jsSet
  split
  · rename_i h
    exact jsGet_map_self k v o h
  · rename_i h
    have hb : o.any (fun p => p.1 = k) = false := by
      cases hb2 : o.any (fun p => p.1 = k) with
      | true => exact absurd hb2 h
      | false => rfl
    exact jsGet_append_self k v o hb

theorem addRefChildrenM_get? :
    ∀ (cs : List ASTNode) (p : String) (i0 j : Nat),
      (addRefChildrenM p i0 cs).1.get? j =
        (cs.get? j).map (fun c =>
          match c with
          | ASTNode.element nm a ch q =>
            (addRefToNodeM (ASTNode.element nm a ch q)
              (p ++ "-" ++ toString (i0 + j + 1))).1
          | ASTNode.text s q => ASTNode.text s q
          | ASTNode.comment s q => ASTNode.comment s q) := by
  intro cs
  induction cs with
  | nil =>
    intro p i0 j
    simp [addRefChildrenM]
  | cons c cs ih =>
    intro p i0 j
    cases j with
    | zero =>
      cases c with
      | element nm a ch q => rfl
      | text s q => rfl
      | comment s q => rfl
    | succ j' =>
      show (addRefChildrenM p (i0 + 1) cs).1.get? j' = _
      rw [ih p (i0 + 1) j']
      have harith : i0 + 1 + j' + 1 = i0 + (j' + 1) + 1 := by omega
      rw [harith]
      rfl

theorem addRefToNodeM_ref :
    ∀ (π : List Nat) (n : ASTNode) (p : String) (nm : String)
      (attrs : ElemAttributes) (ch : List ASTNode) (pos : SrcPos),
      nodeAtNode n π = some (ASTNode.element nm attrs ch pos) → nm ≠ "" →
      refOfOpt (nodeAtNode (addRefToNodeM n p).1 π) =
        some ("devtools_" ++ π.foldl (fun s j => s ++ "-" ++ toString (j + 1)) p
          ++ "_" ++ nm) := by
  intro π
  induction π with
  | nil =>
    intro n p nm attrs ch pos h hnm
    simp only [nodeAtNode, Option.some.injEq] at h
    subst h
    simp only [addRefToNodeM, nodeAtNode, refOfOpt, List.foldl_nil]
    rw [if_pos hnm]
    simp only [Option.getD_some]
    rw [jsGet_jsSet_self]
  | cons i rest ih =>
    intro n p nm attrs ch pos h hnm
    cases n with
    | text s q => exact Option.noConfusion h
    | comment s q => exact Option.noConfusion h
    | element nm0 a0 ch0 q0 =>
      have h' : (match ch0.get? i with
                 | some c => nodeAtNode c rest
                 | none => none) = some (ASTNode.element nm attrs ch pos) := h
      cases hg : ch0.get? i with
      | none =>
        rw [hg] at h'
        exact Option.noConfusion h'
      | some c =>
        rw [hg] at h'
        show refOfOpt
          (match (addRefChildrenM p 0 ch0).1.get? i with
           | some c => nodeAtNode c rest
           | none => none) = _
        rw [addRefChildrenM_get? ch0 p 0 i, hg]
        cases c with
        | element nmc ac chc qc =>
          rw [show (some (ASTNode.element nmc ac chc qc)).map (fun c =>
              match c with
              | ASTNode.element nm a ch q =>
                (addRefToNodeM (ASTNode.element nm a ch q)
                  (p ++ "-" ++ toString (0 + i + 1))).1
              | ASTNode.text s q => ASTNode.text s q
              | ASTNode.comment s q => ASTNode.comment s q) =
            some ((addRefToNodeM (ASTNode.element nmc ac chc qc)
              (p ++ "-" ++ toString (0 + i + 1))).1) from rfl]
          rw [List.foldl_cons]
          have harith : (0 : Nat) + i + 1 = i + 1 := by omega
          rw [harith]
          exact ih (ASTNode.element nmc ac chc qc)
            (p ++ "-" ++ toString (i + 1)) nm attrs ch pos h' hnm
        | text s q =>
          cases rest with
          | nil => exact ASTNode.noConfusion (Option.some.inj h')
          | cons r rs => exact Option.noConfusion h'
        | comment s q =>
          cases rest with
          | nil => exact ASTNode.noConfusion (Option.some.inj h')
          | cons r rs => exact Option.noConfusion h'

theorem C6_ref_path_all_children
    (ast : List ASTNode) (i : Nat) (rest : List Nat) (nm : String)
    (attrs : ElemAttributes) (ch : List ASTNode) (pos : SrcPos)
    (h : nodeAt ast (i :: rest) = some (ASTNode.element nm attrs ch pos))
    (hnm : nm ≠ "") :
    refAt (addRef ast) (i :: rest) = some ("devtools_" ++ pathOf rest ++ "_" ++ nm) := by
  have h' : (match ast.get? i with
             | some n => nodeAtNode n rest
             | none => none) = some (ASTNode.element nm attrs ch pos) := h
  cases hg : ast.get? i with
  | none =>
    rw [hg] at h'
    exact Option.noConfusion h'
  | some n =>
    rw [hg] at h'
    show refOfOpt
      (match (addRef ast).get? i with
       | some n => nodeAtNode n rest
       | none => none) = _
    have hm : (addRef ast).get? i = some ((addRefToNodeM n "1").1) := by
      unfold addRef addRefM
      dsimp only
      rw [List.get?_map, hg]
      rfl
    rw [hm]
    exact addRefToNodeM_ref rest n "1" nm attrs ch pos h' hnm

/-- Concrete forest for the C6 witness: a text sibling before the nested
element. -/
def c6ast : List ASTNode :=
  [ASTNode.element "view" (processAttributes [])
    [ASTNode.text "hi" ⟨0, 0, 1, 1⟩,
     ASTNode.element "text" (processAttributes []) [] ⟨0, 0, 1, 1⟩] ⟨0, 0, 1, 1⟩]

/-- Witness for the amended C6 at the nested element of `c6ast` (all-children
index 1, hence path `1-2`). -/
theorem C6_ref_path_all_children_witness :
    refAt (addRef c6ast) [0, 1] = some ("devtools_" ++ pathOf [1] ++ "_" ++ "text") :=
  C6_ref_path_all_children c6ast 0 [1] "text" (processAttributes []) [] ⟨0, 0, 1, 1⟩
    rfl (by decide)

/-! ## C7 and C8: attribute classification invariants -/

/-- The key list of an optional JS object. -/
def keysOfO {α : Type} (o : Option (List (String × α))) : List String :=
  (o.getD []).map (fun p => p.1)

/-- Boolean membership in a key list. -/
def keyMem (l : List String) (k : String) : Bool :=
  l.any (fun x => x = k)

/-- The map key an attribute contributes through `paStep`: the parsed
directive name for a directive attribute, the raw name otherwise. -/
def attrKey (ra : Attribute) : String :=
  match ra.isDirective, ra.directive with
  | true, some d => d.name
  | _, _ => ra.name

/-- The per-element checker of C7: `props` and `directives` never share a
key, and every `attributesAll` entry is classified exactly once — a
directive-named attribute has its stripped name among the `directives`
keys and contributes nothing to `props`, and vice versa for all others. -/
def c7Check (a : ElemAttributes) : Bool :=
  (keysOfO a.props).all (fun k => !(keyMem (keysOfO a.directives) k)) &&
  a.attributesAll.all (fun ra =>
    if isDirectiveName ra.name then
      keyMem (keysOfO a.directives) ((parseDirective ra.name ra.value).name) &&
        !(keyMem (keysOfO a.props) ra.name)
    else
      keyMem (keysOfO a.props) ra.name &&
        !(keyMem (keysOfO a.directives) ra.name))

/-- The per-element checker of the amended C8: the `props` and `directives`
entry counts sum to at most the `attributesAll` length, with equality
whenever the contributed keys are pairwise distinct. -/
def c8Check (a : ElemAttributes) : Bool :=
  decide ((keysOfO a.props).length + (keysOfO a.directives).length ≤
    a.attributesAll.length) &&
  (!(decide (a.attributesAll.map attrKey).Nodup) ||
    decide ((keysOfO a.props).length + (keysOfO a.directives).length =
      a.attributesAll.length))

mutual

/-- Check a predicate on the attribute record of every element in the
subtree of a node. -/
def nodeAttrsOk (p : ElemAttributes → Bool) : ASTNode → Bool
  | ASTNode.element _ a ch _ => p a && forestAttrsOk p ch
  | _ => true

/-- Check a predicate on the attribute record of every element of a
forest. -/
def forestAttrsOk (p : ElemAttributes → Bool) : List ASTNode → Bool
  | [] => true
  | n :: ns => nodeAttrsOk p n && forestAttrsOk p ns

end

/-- An attribute record in the image of `processAttributes` over classified
attributes — the invariant the parser maintains. -/
def FromClassified (a : ElemAttributes) : Prop :=
  ∃ nvs : List (String × String),
    a = processAttributes (nvs.map (fun q => classifyAttr q.1 q.2))

mutual

/-- Every element in the subtree of a node has `FromClassified` attributes. -/
def GoodNode : ASTNode → Prop
  | ASTNode.element _ a ch _ => FromClassified a ∧ GoodForest ch
  | _ => True

/-- Every element of a forest has `FromClassified` attributes. -/
def GoodForest : List ASTNode → Prop
  | [] => True
  | n :: ns => GoodNode n ∧ GoodForest ns

end

theorem keyMem_iff (l : List String) (k : String) : keyMem l k = true ↔ k ∈ l := by
  simp [keyMem, List.any_eq_true]

theorem keys_jsSet {α : Type} (o : List (String × α)) (k : String) (v : α) :
    (jsSet o k v).map (fun p => p.1) =
      if o.any (fun p => p.1 = k) then o.map (fun p => p.1)
      else o.map (fun p => p.1) ++ [k] := by
  unfold jsSet
  split
  · rw [List.map_map]
    have hfun : ((fun p : String × α => p.1) ∘ fun p => if p.1 = k then (k, v) else p) =
        fun p : String × α => p.1 := by
      funext p
      by_cases h : p.1 = k <;> simp [h]
    rw [hfun]
  · simp

theorem length_jsSet {α : Type} (o : List (String × α)) (k : String) (v : α) :
    (jsSet o k v).length =
      if o.any (fun p => p.1 = k) then o.length else o.length + 1 := by
  unfold jsSet
  split <;> simp

theorem any_key_iff {α : Type} (o : List (String × α)) (k : String) :
    o.any (fun p => p.1 = k) = true ↔ k ∈ o.map (fun p => p.1) := by
  simp [List.any_eq_true]

theorem mem_keys_jsSet_self {α : Type} (o : List (String × α)) (k : String) (v : α) :
    k ∈ (jsSet o k v).map (fun p => p.1) := by
  rw [keys_jsSet]
  split
  · rename_i h
    exact (any_key_iff o k).mp h
  · exact List.mem_append_right _ (List.mem_singleton.mpr rfl)

theorem mem_keys_jsSet_mono {α : Type} {o : List (String × α)} {x : String}
    (k : String) (v : α) (h : x ∈ o.map (fun p => p.1)) :
    x ∈ (jsSet o k v).map (fun p => p.1) := by
  rw [keys_jsSet]
  split
  · exact h
  · exact List.mem_append_left _ h

theorem mem_keys_jsSet_inv {α : Type} {o : List (String × α)} {x : String}
    {k : String} {v : α} (h : x ∈ (jsSet o k v).map (fun p => p.1)) :
    x ∈ o.map (fun p => p.1) ∨ x = k := by
  rw [keys_jsSet] at h
  split at h
  · exact Or.inl h
  · rcases List.mem_append.mp h with h1 | h2
    · exact Or.inl h1
    · exact Or.inr (List.mem_singleton.mp h2)

theorem takeWhile_preserves_prefix :
    ∀ (pre cs : List Char), (∀ c ∈ pre, c ≠ '.') → cs.take pre.length = pre →
      (cs.takeWhile (fun c => c ≠ '.')).take pre.length = pre := by
  intro pre
  induction pre with
  | nil =>
    intro cs _ _
    simp
  | cons p ps ih =>
    intro cs hpre h
    cases cs with
    | nil => simp at h
    | cons c cs' =>
      rw [List.length_cons, List.take_succ_cons] at h
      have hc : c = p := (List.cons.injEq _ _ _ _ ▸ h).1
      have hrest : cs'.take ps.length = ps := (List.cons.injEq _ _ _ _ ▸ h).2
      have hp : p ≠ '.' := hpre p (List.mem_cons_self p ps)
      subst hc
      rw [List.takeWhile_cons_of_pos (by simpa using hp)]
      rw [List.length_cons, List.take_succ_cons]
      rw [ih cs' (fun c hc2 => hpre c (List.mem_cons_of_mem _ hc2)) hrest]

theorem jsStartsWith_strip (n pre : String)
    (hpre : ∀ c ∈ pre.data, c ≠ '.')
    (h : jsStartsWith n pre = true) :
    jsStartsWith (String.mk (n.data.takeWhile (fun c => c ≠ '.'))) pre = true := by
  unfold jsStartsWith at h ⊢
  rw [beq_iff_eq] at h ⊢
  exact takeWhile_preserves_prefix pre.data n.data hpre h

theorem isDirectiveName_strip (n v : String) (h : isDirectiveName n = true) :
    isDirectiveName (parseDirective n v).name = true := by
  unfold parseDirective
  split
  · dsimp only
    unfold isDirectiveName at h ⊢
    simp only [Bool.or_eq_true] at h ⊢
    rcases h with ((h1 | h2) | h3) | h4
    · exact Or.inl (Or.inl (Or.inl (jsStartsWith_strip n "wx:" (by decide) h1)))
    · exact Or.inl (Or.inl (Or.inr (jsStartsWith_strip n "@" (by decide) h2)))
    · exact Or.inl (Or.inr (jsStartsWith_strip n "bind" (by decide) h3))
    · exact Or.inr (jsStartsWith_strip n "catch" (by decide) h4)
  · exact h

/-- The classified attribute built from a directive-style name. -/
theorem classifyAttr_directive (n v : String) (h : isDirectiveName n = true) :
    classifyAttr n v =
      { name := n, value := v, isDirective := true,
        directive := some (parseDirective n v) } := by
  unfold classifyAttr
  rw [h]
  simp

/-- The classified attribute built from a plain name. -/
theorem classifyAttr_plain (n v : String) (h : isDirectiveName n = false) :
    classifyAttr n v =
      { name := n, value := v, isDirective := false, directive := none } := by
  unfold classifyAttr
  rw [h]
  simp

theorem attrKey_classify (n v : String) :
    attrKey (classifyAttr n v) =
      if isDirectiveName n then (parseDirective n v).name else n := by
  cases h : isDirectiveName n with
  | true => rw [classifyAttr_directive n v h, if_pos rfl]; rfl
  | false => rw [classifyAttr_plain n v h, if_neg (by simp)]; rfl

/-- The accumulator of the `processAttributes` fold. -/
def PAcc : Type :=
  Option (List (String × DirectiveEntry)) × Option (List (String × String))

theorem paStep_directive (st : PAcc) (n v : String) (h : isDirectiveName n = true) :
    paStep st (classifyAttr n v) =
      (some (jsSet (st.1.getD []) (parseDirective n v).name
        ⟨(parseDirective n v).value, (parseDirective n v).modifiers⟩), st.2) := by
  rw [classifyAttr_directive n v h]
  rfl

theorem paStep_plain (st : PAcc) (n v : String) (h : isDirectiveName n = false) :
    paStep st (classifyAttr n v) = (st.1, some (jsSet (st.2.getD []) n v)) := by
  rw [classifyAttr_plain n v h]
  rfl

/-- Invariant of the fold: directive-map keys are directive names and prop
keys are not. -/
def KeysInv (st : PAcc) : Prop :=
  (∀ k ∈ keysOfO st.1, isDirectiveName k = true) ∧
  (∀ k ∈ keysOfO st.2, isDirectiveName k = false)

theorem KeysInv_step (st : PAcc) (n v : String) (hinv : KeysInv st) :
    KeysInv (paStep st (classifyAttr n v)) := by
  cases hd : isDirectiveName n with
  | true =>
    rw [paStep_directive st n v hd]
    constructor
    · intro k hk
      rcases mem_keys_jsSet_inv hk with h1 | h2
      · exact hinv.1 k h1
      · subst h2
        exact isDirectiveName_strip n v hd
    · exact hinv.2
  | false =>
    rw [paStep_plain st n v hd]
    constructor
    · exact hinv.1
    · intro k hk
      rcases mem_keys_jsSet_inv hk with h1 | h2
      · exact hinv.2 k h1
      · subst h2
        exact hd

theorem KeysInv_foldl :
    ∀ (nvs : List (String × String)) (st : PAcc), KeysInv st →
      KeysInv ((nvs.map (fun q => classifyAttr q.1 q.2)).foldl paStep st) := by
  intro nvs
  induction nvs with
  | nil =>
    intro st h
    exact h
  | cons q nvs ih =>
    intro st h
    rw [List.map_cons, List.foldl_cons]
    exact ih _ (KeysInv_step st q.1 q.2 h)

theorem keys_mono_foldl :
    ∀ (nvs : List (String × String)) (st : PAcc) (x : String),
      (x ∈ keysOfO st.1 →
        x ∈ keysOfO ((nvs.map (fun q => classifyAttr q.1 q.2)).foldl paStep st).1) ∧
      (x ∈ keysOfO st.2 →
        x ∈ keysOfO ((nvs.map (fun q => classifyAttr q.1 q.2)).foldl paStep st).2) := by
  intro nvs
  induction nvs with
  | nil =>
    intro st x
    exact ⟨id, id⟩
  | cons q nvs ih =>
    intro st x
    rw [List.map_cons, List.foldl_cons]
    cases hd : isDirectiveName q.1 with
    | true =>
      rw [paStep_directive st q.1 q.2 hd]
      refine ⟨fun hx => (ih _ x).1 (mem_keys_jsSet_mono _ _ hx), fun hx => (ih _ x).2 hx⟩
    | false =>
      rw [paStep_plain st q.1 q.2 hd]
      refine ⟨fun hx => (ih _ x).1 hx, fun hx => (ih _ x).2 (mem_keys_jsSet_mono _ _ hx)⟩

theorem key_registered :
    ∀ (nvs : List (String × String)) (st : PAcc) (q : String × String), q ∈ nvs →
      (isDirectiveName q.1 = true →
        (parseDirective q.1 q.2).name ∈
          keysOfO ((nvs.map (fun r => classifyAttr r.1 r.2)).foldl paStep st).1) ∧
      (isDirectiveName q.1 = false →
        q.1 ∈ keysOfO ((nvs.map (fun r => classifyAttr r.1 r.2)).foldl paStep st).2) := by
  intro nvs
  induction nvs with
  | nil =>
    intro st q hq
    cases hq
  | cons q0 nvs ih =>
    intro st q hq
    rw [List.map_cons, List.foldl_cons]
    rcases List.mem_cons.mp hq with rfl | hmem
    · constructor
      · intro hd
        rw [paStep_directive st q.1 q.2 hd]
        exact (keys_mono_foldl nvs _ _).1 (mem_keys_jsSet_self _ _ _)
      · intro hd
        rw [paStep_plain st q.1 q.2 hd]
        exact (keys_mono_foldl nvs _ _).2 (mem_keys_jsSet_self _ _ _)
    · exact ih (paStep st (classifyAttr q0.1 q0.2)) q hmem

theorem c7_of_classified (nvs : List (String × String)) :
    c7Check (processAttributes (nvs.map (fun q => classifyAttr q.1 q.2))) = true := by
  have hinv : KeysInv ((nvs.map (fun q => classifyAttr q.1 q.2)).foldl paStep (none, none)) :=
    KeysInv_foldl nvs (none, none) ⟨fun k hk => absurd hk (by simp [keysOfO]),
      fun k hk => absurd hk (by simp [keysOfO])⟩
  unfold c7Check processAttributes
  dsimp only
  rw [Bool.and_eq_true]
  constructor
  · rw [List.all_eq_true]
    intro k hk
    have hfalse : isDirectiveName k = false := hinv.2 k hk
    have : ¬ (k ∈ keysOfO ((nvs.map (fun q => classifyAttr q.1 q.2)).foldl paStep
        (none, none)).1) := by
      intro hmem
      have := hinv.1 k hmem
      rw [hfalse] at this
      cases this
    cases hkm : keyMem (keysOfO ((nvs.map (fun q => classifyAttr q.1 q.2)).foldl paStep
        (none, none)).1) k with
    | true => exact absurd ((keyMem_iff _ _).mp hkm) this
    | false => rfl
  · rw [List.all_eq_true]
    intro ra hra
    rcases List.mem_map.mp hra with ⟨q, hq, rfl⟩
    have hname : (classifyAttr q.1 q.2).name = q.1 := rfl
    have hvalue : (classifyAttr q.1 q.2).value = q.2 := rfl
    rw [hname, hvalue]
    cases hd : isDirectiveName q.1 with
    | true =>
      rw [if_pos rfl]
      rw [Bool.and_eq_true]
      constructor
      · exact (keyMem_iff _ _).mpr (((key_registered nvs (none, none) q hq).1) hd)
      · have hnot : ¬ (q.1 ∈ keysOfO ((nvs.map (fun r => classifyAttr r.1 r.2)).foldl paStep
            (none, none)).2) := by
          intro hmem
          have := hinv.2 q.1 hmem
          rw [hd] at this
          cases this
        cases hkm : keyMem (keysOfO ((nvs.map (fun r => classifyAttr r.1 r.2)).foldl paStep
            (none, none)).2) q.1 with
        | true => exact absurd ((keyMem_iff _ _).mp hkm) hnot
        | false => rfl
    | false =>
      rw [if_neg (by simp [hd])]
      rw [Bool.and_eq_true]
      constructor
      · exact (keyMem_iff _ _).mpr (((key_registered nvs (none, none) q hq).2) hd)
      · have hnot : ¬ (q.1 ∈ keysOfO ((nvs.map (fun r => classifyAttr r.1 r.2)).foldl paStep
            (none, none)).1) := by
          intro hmem
          have := hinv.1 q.1 hmem
          rw [hd] at this
          cases this
        cases hkm : keyMem (keysOfO ((nvs.map (fun r => classifyAttr r.1 r.2)).foldl paStep
            (none, none)).1) q.1 with
        | true => exact absurd ((keyMem_iff _ _).mp hkm) hnot
        | false => rfl

/-- The total number of entries across the two attribute maps. -/
def lenSum (st : PAcc) : Nat :=
  (keysOfO st.1).length + (keysOfO st.2).length

theorem lenSum_step_le (st : PAcc) (n v : String) :
    lenSum (paStep st (classifyAttr n v)) ≤ lenSum st + 1 := by
  cases hd : isDirectiveName n with
  | true =>
    rw [paStep_directive st n v hd]
    unfold lenSum keysOfO
    dsimp only [Option.getD_some]
    rw [List.length_map, List.length_map, length_jsSet]
    split <;> rw [List.length_map] <;> omega
  | false =>
    rw [paStep_plain st n v hd]
    unfold lenSum keysOfO
    dsimp only [Option.getD_some]
    rw [List.length_map, List.length_map, length_jsSet]
    split <;> rw [List.length_map] <;> omega

theorem lenSum_foldl_le :
    ∀ (nvs : List (String × String)) (st : PAcc),
      lenSum ((nvs.map (fun q => classifyAttr q.1 q.2)).foldl paStep st) ≤
        lenSum st + nvs.length := by
  intro nvs
  induction nvs with
  | nil =>
    intro st
    simp
  | cons q nvs ih =>
    intro st
    rw [List.map_cons, List.foldl_cons]
    have h1 := ih (paStep st (classifyAttr q.1 q.2))
    have h2 := lenSum_step_le st q.1 q.2
    calc lenSum ((nvs.map (fun q => classifyAttr q.1 q.2)).foldl paStep
          (paStep st (classifyAttr q.1 q.2))) ≤
        lenSum (paStep st (classifyAttr q.1 q.2)) + nvs.length := h1
      _ ≤ lenSum st + 1 + nvs.length := by omega
      _ = lenSum st + (q :: nvs).length := by simp [List.length_cons]; omega

theorem any_key_false_of_not_mem {α : Type} {o : List (String × α)} {k : String}
    (h : k ∉ o.map (fun p => p.1)) : o.any (fun p => p.1 = k) = false := by
  cases ha : o.any (fun p => p.1 = k) with
  | true => exact absurd ((any_key_iff o k).mp ha) h
  | false => rfl

theorem lenSum_step_eq (st : PAcc) (n v : String)
    (h1 : attrKey (classifyAttr n v) ∉ keysOfO st.1)
    (h2 : attrKey (classifyAttr n v) ∉ keysOfO st.2) :
    lenSum (paStep st (classifyAttr n v)) = lenSum st + 1 := by
  cases hd : isDirectiveName n with
  | true =>
    have hkey : attrKey (classifyAttr n v) = (parseDirective n v).name := by
      rw [attrKey_classify, if_pos hd]
    rw [hkey] at h1
    rw [paStep_directive st n v hd]
    unfold lenSum keysOfO
    dsimp only [Option.getD_some]
    rw [List.length_map, List.length_map, length_jsSet,
      if_neg (by rw [any_key_false_of_not_mem h1]; simp), List.length_map]
    omega
  | false =>
    have hkey : attrKey (classifyAttr n v) = n := by
      rw [attrKey_classify, if_neg (by simp [hd])]
    rw [hkey] at h2
    rw [paStep_plain st n v hd]
    unfold lenSum keysOfO
    dsimp only [Option.getD_some]
    rw [List.length_map, List.length_map, length_jsSet,
      if_neg (by rw [any_key_false_of_not_mem h2]; simp), List.length_map]
    omega

theorem keys_step_sub (st : PAcc) (n v : String) (x : String) :
    (x ∈ keysOfO (paStep st (classifyAttr n v)).1 →
      x ∈ keysOfO st.1 ∨ x = attrKey (classifyAttr n v)) ∧
    (x ∈ keysOfO (paStep st (classifyAttr n v)).2 →
      x ∈ keysOfO st.2 ∨ x = attrKey (classifyAttr n v)) := by
  cases hd : isDirectiveName n with
  | true =>
    rw [paStep_directive st n v hd]
    constructor
    · intro hx
      rcases mem_keys_jsSet_inv hx with h | h
      · exact Or.inl h
      · right
        rw [attrKey_classify, if_pos hd]
        exact h
    · exact Or.inl
  | false =>
    rw [paStep_plain st n v hd]
    constructor
    · exact Or.inl
    · intro hx
      rcases mem_keys_jsSet_inv hx with h | h
      · exact Or.inl h
      · right
        rw [attrKey_classify, if_neg (by simp [hd])]
        exact h

theorem lenSum_foldl_eq :
    ∀ (nvs : List (String × String)) (st : PAcc),
      (∀ q ∈ nvs, attrKey (classifyAttr q.1 q.2) ∉ keysOfO st.1 ∧
        attrKey (classifyAttr q.1 q.2) ∉ keysOfO st.2) →
      (nvs.map (fun q => attrKey (classifyAttr q.1 q.2))).Nodup →
      lenSum ((nvs.map (fun q => classifyAttr q.1 q.2)).foldl paStep st) =
        lenSum st + nvs.length := by
  intro nvs
  induction nvs with
  | nil =>
    intro st _ _
    simp
  | cons q nvs ih =>
    intro st hfresh hnodup
    rw [List.map_cons, List.foldl_cons]
    have hstep := lenSum_step_eq st q.1 q.2 (hfresh q (List.mem_cons_self q nvs)).1
      (hfresh q (List.mem_cons_self q nvs)).2
    rw [List.map_cons, List.nodup_cons] at hnodup
    have hfresh' : ∀ r ∈ nvs, attrKey (classifyAttr r.1 r.2) ∉
        keysOfO (paStep st (classifyAttr q.1 q.2)).1 ∧
        attrKey (classifyAttr r.1 r.2) ∉ keysOfO (paStep st (classifyAttr q.1 q.2)).2 := by
      intro r hr
      have hne : attrKey (classifyAttr r.1 r.2) ≠ attrKey (classifyAttr q.1 q.2) := by
        intro he
        apply hnodup.1
        rw [← he]
        exact List.mem_map.mpr ⟨r, hr, rfl⟩
      constructor
      · intro hmem
        rcases (keys_step_sub st q.1 q.2 _).1 hmem with h | h
        · exact (hfresh r (List.mem_cons_of_mem q hr)).1 h
        · exact hne h
      · intro hmem
        rcases (keys_step_sub st q.1 q.2 _).2 hmem with h | h
        · exact (hfresh r (List.mem_cons_of_mem q hr)).2 h
        · exact hne h
    rw [ih (paStep st (classifyAttr q.1 q.2)) hfresh' hnodup.2, hstep]
    simp [List.length_cons]
    omega

theorem c8_of_classified (nvs : List (String × String)) :
    c8Check (processAttributes (nvs.map (fun q => classifyAttr q.1 q.2))) = true := by
  unfold c8Check processAttributes
  dsimp only
  rw [Bool.and_eq_true]
  have hlenAll : (nvs.map (fun q => classifyAttr q.1 q.2)).length = nvs.length :=
    List.length_map _ _
  have hle := lenSum_foldl_le nvs (none, none)
  have hzero : lenSum ((none, none) : PAcc) = 0 := rfl
  have hz1 : (keysOfO ((none, none) : PAcc).1).length = 0 := rfl
  have hz2 : (keysOfO ((none, none) : PAcc).2).length = 0 := rfl
  constructor
  · rw [decide_eq_true_eq]
    unfold lenSum at hle
    rw [hz1, hz2] at hle
    rw [hlenAll]
    omega
  · cases hnd : decide ((((nvs.map (fun q => classifyAttr q.1 q.2)).map attrKey)).Nodup) with
    | false => rfl
    | true =>
      rw [Bool.or_eq_true]
      right
      rw [decide_eq_true_eq]
      have hnodup : (((nvs.map (fun q => classifyAttr q.1 q.2)).map attrKey)).Nodup :=
        of_decide_eq_true hnd
      rw [List.map_map] at hnodup
      have heq := lenSum_foldl_eq nvs (none, none)
        (fun q _ => ⟨by simp [keysOfO], by simp [keysOfO]⟩) hnodup
      unfold lenSum at heq
      rw [hz1, hz2] at heq
      rw [hlenAll]
      omega

theorem parseAttribute_classified {σ : LexState} {a : Attribute}
    (h : (parseAttribute σ).1 = some a) : ∃ n v, a = classifyAttr n v := by
  unfold parseAttribute at h
  split at h
  · cases h
  · rename_i name σ1 heq
    dsimp only at h
    split at h <;>
      exact ⟨name, _, (Option.some.inj h).symm⟩

theorem parseAttributesF_classified :
    ∀ (fuel : Nat) {st : PSt} {r : List Attribute × PSt},
      parseAttributesF fuel st = some r →
      ∃ nvs : List (String × String), r.1 = nvs.map (fun q => classifyAttr q.1 q.2) := by
  intro fuel
  induction fuel with
  | zero =>
    intro st r h
    cases h
  | succ fuel ih =>
    intro st r h
    unfold parseAttributesF at h
    dsimp only at h
    split at h
    · cases h
      exact ⟨[], rfl⟩
    · split at h
      · cases h
        exact ⟨[], rfl⟩
      · rename_i a lx2 heq
        split at h
        · cases h
        · rename_i rest st3 hrec
          cases h
          have h1 : (parseAttribute (skipWs st.lx)).1 = some a := by rw [heq]
          obtain ⟨n, v, hav⟩ := parseAttribute_classified h1
          obtain ⟨nvs, hnvs⟩ := ih hrec
          dsimp only at hnvs
          exact ⟨(n, v) :: nvs, by rw [List.map_cons, ← hav, ← hnvs]⟩

theorem parseTextP_good {st : PSt} {n : ASTNode} (h : (parseTextP st).1 = some n) :
    GoodNode n := by
  unfold parseTextP at h
  dsimp only at h
  split at h
  · cases h
  · cases h
    simp [GoodNode]

theorem GoodForest_append :
    ∀ (a b : List ASTNode), GoodForest a → GoodForest b → GoodForest (a ++ b) := by
  intro a
  induction a with
  | nil =>
    intro b _ hb
    exact hb
  | cons n ns ih =>
    intro b ha hb
    rw [List.cons_append]
    simp only [GoodForest] at ha ⊢
    exact ⟨ha.1, ih b ha.2 hb⟩

theorem parse_good :
    ∀ (fuel : Nat),
      (∀ (st : PSt) (r : Option ASTNode × PSt), parseNodeF fuel st = some r →
        ∀ n, r.1 = some n → GoodNode n) ∧
      (∀ (st : PSt) (r : Option ASTNode × PSt), parseElementF fuel st = some r →
        ∀ n, r.1 = some n → GoodNode n) ∧
      (∀ (tag : String) (st : PSt) (r : List ASTNode × PSt),
        parseChildrenF fuel tag st = some r → GoodForest r.1) := by
  intro fuel
  induction fuel with
  | zero =>
    refine ⟨?_, ?_, ?_⟩
    · intro st r h
      cases h
    · intro st r h
      cases h
    · intro tag st r h
      cases h
  | succ fuel ih =>
    obtain ⟨ihN, ihE, ihC⟩ := ih
    refine ⟨?_, ?_, ?_⟩
    · -- parseNodeF
      intro st r h n hn
      unfold parseNodeF at h
      split at h
      · exact ihE st r h n hn
      · cases h
        exact parseTextP_good hn
    · -- parseElementF
      intro st r h n hn
      unfold parseElementF at h
      dsimp only at h
      split at h
      · cases h
        cases hn
      · rename_i lx1 hc1
        split at h
        · cases h
          dsimp only at hn
          cases hn
          simp [parseCommentP, GoodNode]
        · split at h
          · cases h
            cases hn
          · split at h
            · cases h
              cases hn
            · rename_i tag lx2 heq
              split at h
              · cases h
              · rename_i attrs st3 hattrs
                obtain ⟨nvs, hnvs⟩ := parseAttributesF_classified fuel hattrs
                dsimp only at hnvs
                split at h
                · cases h
                  cases hn
                · rename_i lx5 hc5
                  split at h
                  · cases h
                    dsimp only at hn
                    cases hn
                    simp only [GoodNode, GoodForest]
                    exact ⟨⟨nvs, by rw [hnvs]⟩, trivial⟩
                  · split at h
                    · cases h
                    · rename_i children st6 hch
                      cases h
                      dsimp only at hn
                      cases hn
                      simp only [GoodNode]
                      exact ⟨⟨nvs, by rw [hnvs]⟩, ihC tag _ _ hch⟩
    · -- parseChildrenF
      intro tag st r h
      unfold parseChildrenF at h
      dsimp only at h
      split at h
      · cases h
        simp [GoodForest]
      · split at h
        · split at h
          · cases h
            simp [GoodForest]
          · cases h
            simp [GoodForest]
        · split at h
          · cases h
          · rename_i child st2 hnode
            split at h
            · cases h
            · rename_i rest2 st3 hrec
              cases h
              dsimp only
              cases child with
              | none =>
                simpa using ihC tag _ _ hrec
              | some c =>
                simp only [Option.toList, List.cons_append, List.nil_append, GoodForest]
                exact ⟨ihN _ _ hnode c rfl, ihC tag _ _ hrec⟩

theorem parseLoopF_good :
    ∀ (fuel : Nat) (st : PSt) (acc : List ASTNode) (r : List ASTNode × PSt),
      parseLoopF fuel st acc = some r → GoodForest acc → GoodForest r.1 := by
  intro fuel
  induction fuel with
  | zero =>
    intro st acc r h
    cases h
  | succ fuel ih =>
    intro st acc r h hacc
    unfold parseLoopF at h
    dsimp only at h
    split at h
    · cases h
      exact hacc
    · split at h
      · cases h
        exact hacc
      · split at h
        · cases h
        · rename_i node st2 hnode
          refine ih st2 _ r h ?_
          refine GoodForest_append acc node.toList hacc ?_
          cases node with
          | none => simp [GoodForest]
          | some c =>
            simp only [Option.toList, GoodForest]
            exact ⟨(parse_good fuel).1 _ _ hnode c rfl, trivial⟩

mutual

theorem nodeAttrsOk_of_good (p : ElemAttributes → Bool)
    (hp : ∀ a, FromClassified a → p a = true) :
    ∀ n, GoodNode n → nodeAttrsOk p n = true
  | ASTNode.element nm a ch pos, hg => by
    simp only [GoodNode] at hg
    simp only [nodeAttrsOk, Bool.and_eq_true]
    exact ⟨hp a hg.1, forestAttrsOk_of_good p hp ch hg.2⟩
  | ASTNode.text c pos, _ => by simp [nodeAttrsOk]
  | ASTNode.comment c pos, _ => by simp [nodeAttrsOk]

theorem forestAttrsOk_of_good (p : ElemAttributes → Bool)
    (hp : ∀ a, FromClassified a → p a = true) :
    ∀ ns, GoodForest ns → forestAttrsOk p ns = true
  | [], _ => by simp [forestAttrsOk]
  | n :: ns, hg => by
    simp only [GoodForest] at hg
    simp only [forestAttrsOk, Bool.and_eq_true]
    exact ⟨nodeAttrsOk_of_good p hp n hg.1, forestAttrsOk_of_good p hp ns hg.2⟩

end

/-- C7: in every element the parser produces, an attribute name is
classified exactly once — `props` and `directives` never share a key, a
directive-prefixed name yields a `directives` entry (under its stripped
name) and no `props` entry, and every other name yields a `props` entry
and no `directives` entry. -/
theorem C7_classification (s : String) (r : ParseResult)
    (h : parseMpxTemplate s = some r) :
    forestAttrsOk c7Check r.ast = true := by
  unfold parseMpxTemplate at h
  dsimp only at h
  split at h
  · cases h
  · rename_i ast st hl
    cases h
    have hg : GoodForest ast := parseLoopF_good _ _ _ _ hl (by simp [GoodForest])
    refine forestAttrsOk_of_good c7Check ?_ ast hg
    intro a ha
    obtain ⟨nvs, hn⟩ := ha
    rw [hn]
    exact c7_of_classified nvs

/-- Witness for C7 at the concrete input `<view a="1" wx:if="c"/>`. -/
theorem C7_classification_witness :
    forestAttrsOk c7Check
      [ASTNode.element "view"
        (processAttributes [classifyAttr "a" "1", classifyAttr "wx:if" "c"]) []
        ⟨0, 23, 1, 1⟩] = true :=
  C7_classification "<view a=\"1\" wx:if=\"c\"/>"
    ⟨[ASTNode.element "view"
        (processAttributes [classifyAttr "a" "1", classifyAttr "wx:if" "c"]) []
        ⟨0, 23, 1, 1⟩], [], []⟩
    (by rfl)

/-- C8 (amended): `attributesAll` keeps the full raw attribute list of the
element, and in every element the parser produces, the `props` and
`directives` entry counts sum to at most the length of `attributesAll` —
with equality whenever the classified keys of the attributes are pairwise
distinct (a duplicate attribute name collapses into one map entry, see the
counterexample). -/
theorem C8_attr_counts :
    (∀ l : List Attribute, (processAttributes l).attributesAll = l) ∧
    ∀ (s : String) (r : ParseResult), parseMpxTemplate s = some r →
      forestAttrsOk c8Check r.ast = true := by
  constructor
  · intro l
    rfl
  · intro s r h
    unfold parseMpxTemplate at h
    dsimp only at h
    split at h
    · cases h
    · rename_i ast st hl
      cases h
      have hg : GoodForest ast := parseLoopF_good _ _ _ _ hl (by simp [GoodForest])
      refine forestAttrsOk_of_good c8Check ?_ ast hg
      intro a ha
      obtain ⟨nvs, hn⟩ := ha
      rw [hn]
      exact c8_of_classified nvs

/-- Witness for the amended C8 at the concrete input
`<view a="1" wx:if="c"/>` (distinct keys, so the counts are equal). -/
theorem C8_attr_counts_witness :
    forestAttrsOk c8Check
      [ASTNode.element "view"
        (processAttributes [classifyAttr "a" "1", classifyAttr "wx:if" "c"]) []
        ⟨0, 23, 1, 1⟩] = true :=
  C8_attr_counts.2 "<view a=\"1\" wx:if=\"c\"/>"
    ⟨[ASTNode.element "view"
        (processAttributes [classifyAttr "a" "1", classifyAttr "wx:if" "c"]) []
        ⟨0, 23, 1, 1⟩], [], []⟩
    (by rfl)

/-! ## C10: dangling close tag at the start of input -/

/-- The `type` field of a node. -/
def nodeKind : ASTNode → String
  | ASTNode.element _ _ _ _ => "element"
  | ASTNode.text _ _ => "text"
  | ASTNode.comment _ _ => "comment"

/-- The `content` field of a node. -/
def nodeContent : ASTNode → Option String
  | ASTNode.text c _ => some c
  | ASTNode.comment c _ => some c
  | _ => none

theorem takeWhile_all (p : Char → Bool) :
    ∀ (l : List Char), (∀ c ∈ l, p c = true) → l.takeWhile p = l := by
  intro l
  induction l with
  | nil =>
    intro _
    rfl
  | cons c l ih =>
    intro h
    rw [List.takeWhile_cons_of_pos (h c (List.mem_cons_self c l))]
    rw [ih (fun c2 hc2 => h c2 (List.mem_cons_of_mem c hc2))]

theorem dropWhile_append_all (p : Char → Bool) :
    ∀ (l1 l2 : List Char), (∀ c ∈ l1, p c = true) →
      (l1 ++ l2).dropWhile p = l2.dropWhile p := by
  intro l1
  induction l1 with
  | nil =>
    intro l2 _
    rfl
  | cons c l1 ih =>
    intro l2 h
    rw [List.cons_append, List.dropWhile_cons_of_pos (h c (List.mem_cons_self c l1))]
    exact ih l2 (fun c2 hc2 => h c2 (List.mem_cons_of_mem c hc2))

theorem dropWhile_ne_nil_of_mem (p : Char → Bool) :
    ∀ (l : List Char) (x : Char), x ∈ l → p x = false → l.dropWhile p ≠ [] := by
  intro l
  induction l with
  | nil =>
    intro x hx _
    cases hx
  | cons c l ih =>
    intro x hx hpx
    cases hpc : p c with
    | true =>
      rw [List.dropWhile_cons_of_pos hpc]
      rcases List.mem_cons.mp hx with rfl | hx2
      · rw [hpx] at hpc
        cases hpc
      · exact ih x hx2 hpx
    | false =>
      rw [List.dropWhile_cons_of_neg (by rw [hpc]; simp)]
      simp

/-- C10: an input that begins (after leading whitespace) with a close tag
that has no matching open element, such as `</view>`, produces no error:
`parseElement` consumes the `<`, sees the `/` and yields no node, after
which the remaining characters up to the next `<` or end of input are
collected by the text rule into a single Text node. -/
theorem C10_dangling_close_tag (ws t : List Char)
    (hws : ∀ c ∈ ws, isJsSpace c = true)
    (ht : ∀ c ∈ t, c ≠ '<') :
    (parseMpxTemplate (String.mk (ws ++ '<' :: '/' :: t))).map
      (fun r => (r.ast.map nodeKind, r.ast.map nodeContent, r.errors, r.warnings)) =
      some (["text"], [some (String.mk ('/' :: t))], [], []) := by
  set cs : List Char := ws ++ '<' :: '/' :: t with hcs
  set σ0 : LexState := ⟨cs, 1, 1, 0⟩ with hσ0
  set lx1 : LexState := advance1 (skipWs σ0) with hlx1
  have hrest0 : σ0.rest = cs := by rw [hσ0]
  have hrest1 : (skipWs σ0).rest = '<' :: '/' :: t := by
    rw [skipWs_rest, hrest0, hcs, dropWhile_append_all isJsSpace ws _ hws]
    rw [List.dropWhile_cons_of_neg (by decide)]
  have hrest2 : lx1.rest = '/' :: t := by
    rw [hlx1, advance1_rest, hrest1]
    rfl
  have hskip2 : skipWs lx1 = lx1 := by
    unfold skipWs
    rw [hrest2, List.takeWhile_cons_of_neg (by decide)]
    rfl
  have hcons : consumeChar (skipWs σ0) '<' = some lx1 := by
    unfold consumeChar
    rw [hrest1]
    rw [if_pos (show ('<' :: '/' :: t : List Char).head? = some '<' from rfl), hlx1]
  have helem : parseElementF (cs.length + 1) ⟨skipWs σ0, [], []⟩ =
      some (none, ⟨lx1, [], []⟩) := by
    unfold parseElementF
    dsimp only
    rw [hcons]
    dsimp only
    rw [if_neg (by rw [hrest2]; simp)]
    rw [if_pos (by rw [hrest2]; rfl)]
  have hnode1 : parseNodeF (cs.length + 2) ⟨skipWs σ0, [], []⟩ =
      some (none, ⟨lx1, [], []⟩) := by
    show parseNodeF ((cs.length + 1) + 1) _ = _
    unfold parseNodeF
    rw [if_pos (show (⟨skipWs σ0, [], []⟩ : PSt).lx.rest.head? = some '<' by
      rw [show (⟨skipWs σ0, [], []⟩ : PSt).lx = skipWs σ0 from rfl, hrest1]
      rfl)]
    exact helem
  have hall : ∀ c ∈ '/' :: t, (fun c => decide (c ≠ '<')) c = true := by
    intro c hc
    rcases List.mem_cons.mp hc with rfl | hc2
    · decide
    · simp [ht c hc2]
  have htrim : ¬ ((jsTrimL ('/' :: t)).isEmpty = true) := by
    rw [List.isEmpty_iff]
    unfold jsTrimL
    intro hnil
    rw [List.reverse_eq_nil_iff] at hnil
    refine dropWhile_ne_nil_of_mem isJsSpace _ '/' ?_ (by decide) hnil
    rw [List.dropWhile_cons_of_neg (by decide), List.mem_reverse]
    exact List.mem_cons_self _ _
  have htext : parseTextP ⟨lx1, [], []⟩ =
      (some (ASTNode.text (String.mk ('/' :: t))
        ⟨lx1.pos, (advanceN lx1 ('/' :: t).length).pos, lx1.line, lx1.col⟩),
       ⟨advanceN lx1 ('/' :: t).length, [], []⟩) := by
    unfold parseTextP
    dsimp only
    rw [hrest2, takeWhile_all _ _ hall, if_neg htrim]
  have hnode2 : parseNodeF (cs.length + 1) ⟨lx1, [], []⟩ =
      some (parseTextP ⟨lx1, [], []⟩) := by
    show parseNodeF (cs.length + 1) _ = _
    unfold parseNodeF
    rw [if_neg (show ¬ ((⟨lx1, [], []⟩ : PSt).lx.rest.head? = some '<') by
      rw [show (⟨lx1, [], []⟩ : PSt).lx = lx1 from rfl, hrest2]
      simp)]
  have hrest3 : (advanceN lx1 ('/' :: t).length).rest = [] := by
    rw [advanceN_rest, hrest2, List.drop_length]
  have hloop3 : ∀ (acc : List ASTNode),
      parseLoopF (cs.length + 1) ⟨advanceN lx1 ('/' :: t).length, [], []⟩ acc =
        some (acc, ⟨advanceN lx1 ('/' :: t).length, [], []⟩) := by
    intro acc
    unfold parseLoopF
    rw [if_pos (show (⟨advanceN lx1 ('/' :: t).length, [], []⟩ : PSt).lx.rest.head? = none by
      rw [show (⟨advanceN lx1 ('/' :: t).length, [], []⟩ : PSt).lx =
        advanceN lx1 ('/' :: t).length from rfl, hrest3]
      rfl)]
  have hloop2 : parseLoopF (cs.length + 2) ⟨lx1, [], []⟩ [] =
      some ([ASTNode.text (String.mk ('/' :: t))
        ⟨lx1.pos, (advanceN lx1 ('/' :: t).length).pos, lx1.line, lx1.col⟩],
        ⟨advanceN lx1 ('/' :: t).length, [], []⟩) := by
    show parseLoopF ((cs.length + 1) + 1) _ _ = _
    unfold parseLoopF
    dsimp only
    rw [if_neg (by rw [hrest2]; simp)]
    rw [hskip2]
    rw [if_neg (by rw [hrest2]; simp)]
    rw [show ({ lx := lx1, errors := [], warnings := [] } : PSt) = ⟨lx1, [], []⟩ from rfl]
    rw [hnode2, htext]
    dsimp only
    exact hloop3 _
  have hloop1 : parseLoopF (cs.length + 3) ⟨σ0, [], []⟩ [] =
      some ([ASTNode.text (String.mk ('/' :: t))
        ⟨lx1.pos, (advanceN lx1 ('/' :: t).length).pos, lx1.line, lx1.col⟩],
        ⟨advanceN lx1 ('/' :: t).length, [], []⟩) := by
    show parseLoopF ((cs.length + 2) + 1) _ _ = _
    unfold parseLoopF
    dsimp only
    rw [if_neg (by rw [hcs]; simp)]
    rw [if_neg (by rw [hrest1]; simp)]
    rw [hnode1]
    dsimp only
    exact hloop2
  unfold parseMpxTemplate
  dsimp only
  rw [← hσ0]
  rw [hloop1]
  rfl

/-- Witness for C10 at the concrete input `</view>`. -/
theorem C10_dangling_close_tag_witness :
    (parseMpxTemplate (String.mk ([] ++ '<' :: '/' :: "view>".data))).map
      (fun r => (r.ast.map nodeKind, r.ast.map nodeContent, r.errors, r.warnings)) =
      some (["text"], [some (String.mk ('/' :: "view>".data))], [], []) :=
  C10_dangling_close_tag [] "view>".data (by decide) (by decide)

end Mpx
